import Mathlib

/-!
Verification of the p4_helper streaming decoders and record assembler.

The development shallowly embeds the Rust sources:
  src/parsers/py_dict.rs  (binary, length-prefixed dictionary decoder)
  src/parsers/ztag.rs     (line-oriented text decoder)
  src/lib.rs              (interim accumulators and their fallible conversions)
  src/changes.rs          (changelist assembler)
  src/describe.rs         (file-entry assembler)

Bytes are modelled as Nat (values below 256 in every reachable use), byte
streams as List Nat, and fallible operations as Except values.  Rust panics
(assert failures, unwrap on None/Err, unreachable arms, out-of-range slicing)
are modelled as an explicit distinguished outcome, never as a returned error.
-/

/-! ## UTF-8 (model of core::str validation used by str::from_utf8 and read_line) -/

/-- Decode a whole byte list as UTF-8; none on any invalid sequence
(mirrors str::from_utf8 returning Err).  Follows the Unicode table enforced
by the Rust standard library: overlong forms, surrogates and values above
0x10FFFF are rejected. -/
def utf8Decode? : List Nat → Option (List Char)
  | [] => some []
  | b :: rest =>
    if b < 0x80 then (utf8Decode? rest).map (Char.ofNat b :: ·)
    else if 0xC2 ≤ b ∧ b ≤ 0xDF then
      match rest with
      | c1 :: rest2 =>
        if 0x80 ≤ c1 ∧ c1 ≤ 0xBF then
          (utf8Decode? rest2).map (Char.ofNat ((b - 0xC0) * 0x40 + (c1 - 0x80)) :: ·)
        else none
      | [] => none
    else if 0xE0 ≤ b ∧ b ≤ 0xEF then
      match rest with
      | c1 :: c2 :: rest3 =>
        if (if b = 0xE0 then 0xA0 else 0x80) ≤ c1 ∧
           c1 ≤ (if b = 0xED then 0x9F else 0xBF) ∧
           0x80 ≤ c2 ∧ c2 ≤ 0xBF then
          (utf8Decode? rest3).map
            (Char.ofNat ((b - 0xE0) * 0x1000 + (c1 - 0x80) * 0x40 + (c2 - 0x80)) :: ·)
        else none
      | _ => none
    else if 0xF0 ≤ b ∧ b ≤ 0xF4 then
      match rest with
      | c1 :: c2 :: c3 :: rest4 =>
        if (if b = 0xF0 then 0x90 else 0x80) ≤ c1 ∧
           c1 ≤ (if b = 0xF4 then 0x8F else 0xBF) ∧
           0x80 ≤ c2 ∧ c2 ≤ 0xBF ∧ 0x80 ≤ c3 ∧ c3 ≤ 0xBF then
          (utf8Decode? rest4).map
            (Char.ofNat ((b - 0xF0) * 0x40000 + (c1 - 0x80) * 0x1000 +
                         (c2 - 0x80) * 0x40 + (c3 - 0x80)) :: ·)
        else none
      | _ => none
    else none

/-- Encode one scalar value to UTF-8 bytes. -/
def utf8EncodeChar (c : Char) : List Nat :=
  let n := c.toNat
  if n < 0x80 then [n]
  else if n < 0x800 then [0xC0 + n / 0x40, 0x80 + n % 0x40]
  else if n < 0x10000 then
    [0xE0 + n / 0x1000, 0x80 + n / 0x40 % 0x40, 0x80 + n % 0x40]
  else
    [0xF0 + n / 0x40000, 0x80 + n / 0x1000 % 0x40, 0x80 + n / 0x40 % 0x40, 0x80 + n % 0x40]

/-- The UTF-8 bytes of a Lean string, used to transcribe the Rust byte data
of string literals. -/
def strBytes (s : String) : List Nat := (s.data.map utf8EncodeChar).flatten

/-! ## Binary decoder: src/parsers/py_dict.rs -/

/-- PyDictParseState from py_dict.rs. -/
inductive PyDictParseState where
  | Root   -- next can be a dict or eof
  | Dict   -- next can be a string or null
  | Key    -- key string state
  | Value  -- value string state
  | Eof    -- terminal
deriving DecidableEq, Repr

/-- PyDictTag from py_dict.rs. -/
inductive PyDictTag where
  | dict    -- byte 0x7B
  | string  -- byte 0x73
  | null    -- byte 0x30
  | other   -- any other byte
  | eofTag  -- end of file
deriving DecidableEq, Repr

/-- PyDictTag::from_byte. -/
def pyTagFromByte (b : Nat) : PyDictTag :=
  if b = 0x7B then .dict
  else if b = 0x73 then .string
  else if b = 0x30 then .null
  else .other

/-- P4PyDictParseError from py_dict.rs.  The Io constructor exists in the
source for propagated reader errors; a pure byte-list reader never produces
it, but it is kept for shape fidelity. -/
inductive P4PyDictParseError where
  | unexpectedEof
  | invalidTag (tag : Nat)
  | ioError
deriving DecidableEq, Repr

/-- P4PyDictParser state: the unread bytes of the reader plus the fields of
the Rust struct. -/
structure P4PyDictParser where
  input : List Nat
  state : PyDictParseState
  current_dict_index : Option Nat
  current_key_buffer : List Nat
  current_value_buffer : List Nat
deriving DecidableEq, Repr

/-- P4PyDictParser::new. -/
def pyInit (bytes : List Nat) : P4PyDictParser :=
  { input := bytes
    state := .Root
    current_dict_index := none
    current_key_buffer := []
    current_value_buffer := [] }

/-- P4PyDictParser::expect_tags.  read_exact of a single byte at end of
input yields an UnexpectedEof io error, which the source converts into
Ok(Eof) without consulting the accepted set; a read byte outside the
accepted set is an InvalidTag error carrying the byte. -/
def pyExpectTags (tags : List PyDictTag) (input : List Nat) :
    Except P4PyDictParseError (PyDictTag × List Nat) :=
  match input with
  | [] => .ok (.eofTag, [])
  | b :: rest =>
    let found := pyTagFromByte b
    if found ∈ tags then .ok (found, rest) else .error (.invalidTag b)

/-- P4PyDictParser::read_string: 4-byte little-endian length then that many
raw bytes; end of input inside either part is the UnexpectedEof error. -/
def pyReadString (input : List Nat) :
    Except P4PyDictParseError (List Nat × List Nat) :=
  match input with
  | a :: b :: c :: d :: rest =>
    let len := a + 256 * b + 65536 * c + 16777216 * d
    if len ≤ rest.length then .ok (rest.take len, rest.drop len)
    else .error .unexpectedEof
  | _ => .error .unexpectedEof

/-- Result of P4PyDictParser::advance: the updated parser and the
should_yield flag, an error, or a panic from an unreachable! arm. -/
inductive PyAdvanceResult where
  | ok (shouldYield : Bool) (p : P4PyDictParser)
  | err (e : P4PyDictParseError)
  | panicked
deriving DecidableEq, Repr

/-- The dict-index update of the Root state: None becomes Some 0 on the
first record, otherwise the index is incremented. -/
def pyNextIdx : Option Nat → Nat
  | none => 0
  | some k => k + 1

/-- P4PyDictParser::advance.  The state match of the source; every
`_ => unreachable!()` arm is the panicked outcome (it is reached when
expect_tags maps end of input to the Eof tag outside the accepted set). -/
def pyAdvance (p : P4PyDictParser) : PyAdvanceResult :=
  match p.state with
  | .Root =>
    match pyExpectTags [.dict, .eofTag] p.input with
    | .error e => .err e
    | .ok (t, rest) =>
      match t with
      | .dict =>
        .ok false { p with input := rest, state := .Dict,
                           current_dict_index := some (pyNextIdx p.current_dict_index) }
      | .eofTag => .ok false { p with input := rest, state := .Eof }
      | _ => .panicked
  | .Dict =>
    match pyExpectTags [.string, .null] p.input with
    | .error e => .err e
    | .ok (t, rest) =>
      match t with
      | .string => .ok false { p with input := rest, state := .Key }
      | .null => .ok false { p with input := rest, state := .Root }
      | _ => .panicked
  | .Key =>
    match pyReadString p.input with
    | .error e => .err e
    | .ok (s, rest) =>
      -- the result of the single-variant expect_tags call is discarded by
      -- the source; only an Err propagates
      match pyExpectTags [.string] rest with
      | .error e => .err e
      | .ok (_, rest2) =>
        .ok false { p with input := rest2, state := .Value, current_key_buffer := s }
  | .Value =>
    match pyReadString p.input with
    | .error e => .err e
    | .ok (s, rest) =>
      match pyExpectTags [.string, .null] rest with
      | .error e => .err e
      | .ok (t, rest2) =>
        match t with
        | .string => .ok true { p with input := rest2, state := .Key, current_value_buffer := s }
        | .null => .ok true { p with input := rest2, state := .Root, current_value_buffer := s }
        | _ => .panicked
  | .Eof => .panicked

/-- Outcome of one pull (P4PyDictParser::get_next_kvp): a yielded triple with
the parser that produced it, clean exhaustion, a returned error, or a panic.
The key and value of a triple are the decoded strings; the unwrap of
str::from_utf8 on an invalid buffer is the panicked outcome, as is the
unwrap of a missing dict index. -/
inductive PyPullResult where
  | yield (p : P4PyDictParser) (t : Nat × String × String)
  | exhausted (p : P4PyDictParser)
  | err (e : P4PyDictParseError)
  | panicked
deriving DecidableEq, Repr

theorem pyExpectTags_length {tags : List PyDictTag} {input : List Nat}
    {t : PyDictTag} {rest : List Nat}
    (h : pyExpectTags tags input = .ok (t, rest)) :
    rest.length ≤ input.length ∧ (input = [] ∨ rest.length < input.length) := by
  cases input with
  | nil =>
    simp only [pyExpectTags, Except.ok.injEq, Prod.mk.injEq] at h
    simp [h.2]
  | cons b tl =>
    simp only [pyExpectTags] at h
    split at h
    · simp only [Except.ok.injEq, Prod.mk.injEq] at h
      simp [h.2]
    · exact absurd h (by simp)

theorem pyReadString_length {input s rest : List Nat}
    (h : pyReadString input = .ok (s, rest)) :
    rest.length < input.length := by
  match input with
  | [] => exact absurd h (by simp [pyReadString])
  | [a] => exact absurd h (by simp [pyReadString])
  | [a, b] => exact absurd h (by simp [pyReadString])
  | [a, b, c] => exact absurd h (by simp [pyReadString])
  | a :: b :: c :: d :: tl =>
    simp only [pyReadString] at h
    split at h
    · simp only [Except.ok.injEq, Prod.mk.injEq] at h
      have : rest.length ≤ tl.length := by
        rw [← h.2]
        simp [List.length_drop]
      simp only [List.length_cons]
      omega
    · exact absurd h (by simp)

theorem pyTagFromByte_ne_eofTag (b : Nat) : pyTagFromByte b ≠ .eofTag := by
  simp only [pyTagFromByte]
  split
  · simp
  · split
    · simp
    · split <;> simp

theorem pyExpectTags_eofTag {tags : List PyDictTag} {input rest : List Nat}
    (h : pyExpectTags tags input = .ok (.eofTag, rest)) :
    input = [] ∧ rest = [] := by
  cases input with
  | nil =>
    simp only [pyExpectTags, Except.ok.injEq, Prod.mk.injEq] at h
    exact ⟨rfl, h.2.symm⟩
  | cons b tl =>
    exfalso
    simp only [pyExpectTags] at h
    split at h
    · simp only [Except.ok.injEq, Prod.mk.injEq] at h
      exact pyTagFromByte_ne_eofTag b h.1
    · simp at h

theorem pyAdvance_measure {p : P4PyDictParser} {sy : Bool} {q : P4PyDictParser}
    (h : pyAdvance p = .ok sy q) :
    q.input.length < p.input.length ∨
      (q.input = p.input ∧ q.state = .Eof ∧ sy = false) := by
  obtain ⟨input, state, idx, kb, vb⟩ := p
  cases state
  case Eof =>
    simp only [pyAdvance] at h
    exact PyAdvanceResult.noConfusion h
  case Root =>
    simp only [pyAdvance] at h
    rcases het : pyExpectTags [.dict, .eofTag] input with e | ⟨t, rest⟩ <;>
      rw [het] at h
    · simp at h
    · obtain ⟨h1, h2⟩ := pyExpectTags_length het
      cases t with
      | dict =>
        simp only [] at h
        injection h with hsy hq
        subst hsy; subst hq
        rcases h2 with h2 | h2
        · rw [h2] at het; simp [pyExpectTags] at het
        · left; exact h2
      | eofTag =>
        simp only [] at h
        injection h with hsy hq
        subst hsy; subst hq
        obtain ⟨hin, hrest⟩ := pyExpectTags_eofTag het
        right
        exact ⟨by simp [hin, hrest], rfl, rfl⟩
      | string => simp at h
      | null => simp at h
      | other => simp at h
  case Dict =>
    simp only [pyAdvance] at h
    rcases het : pyExpectTags [.string, .null] input with e | ⟨t, rest⟩ <;>
      rw [het] at h
    · simp at h
    · obtain ⟨h1, h2⟩ := pyExpectTags_length het
      cases t with
      | string =>
        simp only [] at h
        injection h with hsy hq
        subst hsy; subst hq
        rcases h2 with h2 | h2
        · rw [h2] at het; simp [pyExpectTags] at het
        · left; exact h2
      | null =>
        simp only [] at h
        injection h with hsy hq
        subst hsy; subst hq
        rcases h2 with h2 | h2
        · rw [h2] at het; simp [pyExpectTags] at het
        · left; exact h2
      | dict => simp at h
      | eofTag => simp at h
      | other => simp at h
  case Key =>
    simp only [pyAdvance] at h
    rcases hrs : pyReadString input with e | ⟨s, rest⟩ <;> rw [hrs] at h
    · simp at h
    · simp only [] at h
      have hr1 := pyReadString_length hrs
      rcases het : pyExpectTags [.string] rest with e | ⟨t, rest2⟩ <;>
        rw [het] at h
      · simp at h
      · have hr2 := (pyExpectTags_length het).1
        simp only [] at h
        injection h with hsy hq
        subst hsy; subst hq
        left
        simp only []
        omega
  case Value =>
    simp only [pyAdvance] at h
    rcases hrs : pyReadString input with e | ⟨s, rest⟩ <;> rw [hrs] at h
    · simp at h
    · simp only [] at h
      have hr1 := pyReadString_length hrs
      rcases het : pyExpectTags [.string, .null] rest with e | ⟨t, rest2⟩ <;>
        rw [het] at h
      · simp at h
      · have hr2 := (pyExpectTags_length het).1
        cases t with
        | string =>
          simp only [] at h
          injection h with hsy hq
          subst hsy; subst hq
          left
          simp only []
          omega
        | null =>
          simp only [] at h
          injection h with hsy hq
          subst hsy; subst hq
          left
          simp only []
          omega
        | dict => simp at h
        | eofTag => simp at h
        | other => simp at h


/-- Loop measure for get_next_kvp: every advance step either consumes input
or moves Root to Eof without consuming. -/
def pyMeasure (p : P4PyDictParser) : Nat :=
  p.input.length * 2 + (if p.state = .Eof then 0 else 1)

/-- Fuel-indexed body of P4PyDictParser::get_next_kvp.  The wrapper
pyGetNextKvp below supplies fuel strictly above the loop measure, so the
fuel-out branch is unreachable; pyGetNextKvp_eq restates the function as
the literal loop of the source. -/
def pyPullFuel : Nat → P4PyDictParser → PyPullResult
  | 0, _ => .panicked
  | fuel + 1, p =>
    if p.state = .Eof then .exhausted p
    else
      match pyAdvance p with
      | .panicked => .panicked
      | .err e => .err e
      | .ok true q =>
        match utf8Decode? q.current_key_buffer, utf8Decode? q.current_value_buffer with
        | some k, some v =>
          match q.current_dict_index with
          | some i => .yield q (i, String.mk k, String.mk v)
          | none => .panicked
        | some _, none => .panicked
        | none, _ => .panicked
      | .ok false q => pyPullFuel fuel q

theorem pyPullFuel_congr :
    ∀ f1 f2 p, pyMeasure p < f1 → pyMeasure p < f2 →
      pyPullFuel f1 p = pyPullFuel f2 p := by
  intro f1
  induction f1 with
  | zero => intro f2 p h1 h2; omega
  | succ f1 ih =>
    intro f2 p h1 h2
    cases f2 with
    | zero => omega
    | succ f2 =>
      simp only [pyPullFuel]
      by_cases hst : p.state = .Eof
      · simp [hst]
      · simp only [if_neg hst]
        cases hA : pyAdvance p with
        | ok sy q =>
          cases sy with
          | false =>
            have hm := pyAdvance_measure hA
            have hq : pyMeasure q < pyMeasure p := by
              unfold pyMeasure
              simp only [if_neg hst]
              rcases hm with hm | ⟨hm1, hm2, _⟩
              · split <;> omega
              · rw [hm1, hm2]
                simp only [reduceIte]
                omega
            exact ih f2 q (by omega) (by omega)
          | true => rfl
        | err e => rfl
        | panicked => rfl

/-- P4PyDictParser::get_next_kvp: loop advancing the state machine until a
pair is ready to yield or the Eof state is reached.  The yielded key and
value are the str::from_utf8 conversions of the two buffers; those unwraps
(and the unwrap of the dict index) panic rather than err. -/
def pyGetNextKvp (p : P4PyDictParser) : PyPullResult :=
  pyPullFuel (pyMeasure p + 1) p

/-- pyGetNextKvp satisfies the loop equation of the source verbatim. -/
theorem pyGetNextKvp_eq (p : P4PyDictParser) :
    pyGetNextKvp p =
      if p.state = .Eof then .exhausted p
      else
        match pyAdvance p with
        | .panicked => .panicked
        | .err e => .err e
        | .ok true q =>
          match utf8Decode? q.current_key_buffer, utf8Decode? q.current_value_buffer with
          | some k, some v =>
            match q.current_dict_index with
            | some i => .yield q (i, String.mk k, String.mk v)
            | none => .panicked
          | some _, none => .panicked
          | none, _ => .panicked
        | .ok false q => pyGetNextKvp q := by
  unfold pyGetNextKvp
  rw [pyPullFuel]
  by_cases hst : p.state = .Eof
  · simp [hst]
  · simp only [if_neg hst]
    cases hA : pyAdvance p with
    | ok sy q =>
      cases sy with
      | false =>
        have hm := pyAdvance_measure hA
        have hq : pyMeasure q < pyMeasure p := by
          unfold pyMeasure
          simp only [if_neg hst]
          rcases hm with hm | ⟨hm1, hm2, _⟩
          · split <;> omega
          · rw [hm1, hm2]
            simp only [reduceIte]
            omega
        exact pyPullFuel_congr _ _ q (by omega) (by omega)
      | true => rfl
    | err e => rfl
    | panicked => rfl

theorem pyGetNextKvp_yield_length :
    ∀ m p q t, pyMeasure p ≤ m → pyGetNextKvp p = .yield q t →
      q.input.length < p.input.length := by
  intro m
  induction m with
  | zero =>
    intro p q t hm h
    rw [pyGetNextKvp_eq] at h
    have hst : p.state = .Eof := by
      by_contra hc
      simp [pyMeasure, if_neg hc] at hm
    rw [if_pos hst] at h
    exact PyPullResult.noConfusion h
  | succ m ih =>
    intro p q t hm h
    rw [pyGetNextKvp_eq] at h
    split at h
    · exact PyPullResult.noConfusion h
    · rename_i hst
      split at h
      · exact PyPullResult.noConfusion h
      · exact PyPullResult.noConfusion h
      · rename_i q' hA
        split at h
        · split at h
          · rename_i k v hk hv i hi
            injection h with hq ht
            subst hq
            rcases pyAdvance_measure hA with h1 | ⟨_, _, h3⟩
            · exact h1
            · exact Bool.noConfusion h3
          · exact PyPullResult.noConfusion h
        · exact PyPullResult.noConfusion h
        · exact PyPullResult.noConfusion h
      · rename_i q' hA
        have hm' := pyAdvance_measure hA
        have hq' : pyMeasure q' < pyMeasure p := by
          unfold pyMeasure
          simp only [if_neg hst]
          rcases hm' with h1 | ⟨h1, h2, _⟩
          · split <;> omega
          · rw [h1, h2]
            simp only [reduceIte]
            omega
        have := ih q' q t (by omega) h
        rcases hm' with h1 | ⟨h1, _, _⟩
        · omega
        · rw [h1] at this; exact this

theorem pyGetNextKvp_exhausted_eof :
    ∀ m p q, pyMeasure p ≤ m → pyGetNextKvp p = .exhausted q →
      q.state = .Eof := by
  intro m
  induction m with
  | zero =>
    intro p q hm h
    rw [pyGetNextKvp_eq] at h
    have hst : p.state = .Eof := by
      by_contra hc
      simp [pyMeasure, if_neg hc] at hm
    rw [if_pos hst] at h
    injection h with hq
    exact hq ▸ hst
  | succ m ih =>
    intro p q hm h
    rw [pyGetNextKvp_eq] at h
    split at h
    · rename_i hst
      injection h with hq
      exact hq ▸ hst
    · rename_i hst
      split at h
      · exact PyPullResult.noConfusion h
      · exact PyPullResult.noConfusion h
      · split at h
        · split at h
          · exact PyPullResult.noConfusion h
          · exact PyPullResult.noConfusion h
        · exact PyPullResult.noConfusion h
        · exact PyPullResult.noConfusion h
      · rename_i q' hA
        have hm' := pyAdvance_measure hA
        have hq' : pyMeasure q' < pyMeasure p := by
          unfold pyMeasure
          simp only [if_neg hst]
          rcases hm' with h1 | ⟨h1, h2, _⟩
          · split <;> omega
          · rw [h1, h2]
            simp only [reduceIte]
            omega
        exact ih q' q (by omega) h

/-- Result of pulling a decoder to exhaustion and collecting the triples. -/
inductive PyRunResult where
  | finished (ts : List (Nat × String × String))
  | failed (e : P4PyDictParseError)
  | crashed
deriving DecidableEq, Repr

/-- Fuel-indexed driver: repeatedly pull and collect yielded triples until
exhaustion, an error, or a panic. -/
def pyRunFuel : Nat → P4PyDictParser → PyRunResult
  | 0, _ => .crashed
  | f + 1, p =>
    match pyGetNextKvp p with
    | .exhausted _ => .finished []
    | .err e => .failed e
    | .panicked => .crashed
    | .yield q t =>
      match pyRunFuel f q with
      | .finished ts => .finished (t :: ts)
      | r => r

theorem pyRunFuel_congr :
    ∀ f1 f2 p, p.input.length < f1 → p.input.length < f2 →
      pyRunFuel f1 p = pyRunFuel f2 p := by
  intro f1
  induction f1 with
  | zero => intro f2 p h1 h2; omega
  | succ f1 ih =>
    intro f2 p h1 h2
    cases f2 with
    | zero => omega
    | succ f2 =>
      simp only [pyRunFuel]
      cases hP : pyGetNextKvp p with
      | exhausted q => rfl
      | err e => rfl
      | panicked => rfl
      | yield q t =>
        have := pyGetNextKvp_yield_length (pyMeasure p) p q t (by omega) hP
        simp only []
        rw [ih f2 q (by omega) (by omega)]

/-- Drive the binary decoder to completion from a given parser state. -/
def pyRunAll (p : P4PyDictParser) : PyRunResult :=
  pyRunFuel (p.input.length + 1) p

theorem pyRunAll_eq (p : P4PyDictParser) :
    pyRunAll p =
      match pyGetNextKvp p with
      | .exhausted _ => .finished []
      | .err e => .failed e
      | .panicked => .crashed
      | .yield q t =>
        match pyRunAll q with
        | .finished ts => .finished (t :: ts)
        | r => r := by
  unfold pyRunAll
  rw [pyRunFuel]
  cases hP : pyGetNextKvp p with
  | exhausted q => rfl
  | err e => rfl
  | panicked => rfl
  | yield q t =>
    have := pyGetNextKvp_yield_length (pyMeasure p) p q t (by omega) hP
    simp only []
    rw [pyRunFuel_congr p.input.length (q.input.length + 1) q (by omega) (by omega)]

example :
    pyRunAll (pyInit [0x7B, 0x73, 1, 0, 0, 0, 0x61, 0x73, 1, 0, 0, 0, 0x62, 0x30]) =
      .finished [(0, "a", "b")] := by decide

/-! ## The binary wire grammar (section 6 of the spec) and its encoding -/

/-- Little-endian 4-byte encoding of a string length below 2^32. -/
def encU32le (n : Nat) : List Nat :=
  [n % 256, n / 256 % 256, n / 65536 % 256, n / 16777216 % 256]

/-- A String token: tag byte, 4-byte length, raw bytes. -/
def encString (s : List Nat) : List Nat := 0x73 :: (encU32le s.length ++ s)

/-- One key-value pair: two consecutive String tokens. -/
def encPair (kv : List Nat × List Nat) : List Nat := encString kv.1 ++ encString kv.2

def encPairs (ps : List (List Nat × List Nat)) : List Nat := (ps.map encPair).flatten

/-- One record: dict-open tag, pairs, null (dict-close) tag. -/
def encRecord (ps : List (List Nat × List Nat)) : List Nat :=
  0x7B :: (encPairs ps ++ [0x30])

/-- A stream: zero or more records back to back. -/
def encStream (rs : List (List (List Nat × List Nat))) : List Nat :=
  (rs.map encRecord).flatten

/-- A pair is valid wire data when both byte strings fit the 4-byte length
field and are valid UTF-8 (required by the format). -/
def ValidPair (kv : List Nat × List Nat) : Prop :=
  kv.1.length < 2 ^ 32 ∧ kv.2.length < 2 ^ 32 ∧
    (utf8Decode? kv.1).isSome ∧ (utf8Decode? kv.2).isSome

def ValidStream (rs : List (List (List Nat × List Nat))) : Prop :=
  ∀ r ∈ rs, ∀ kv ∈ r, ValidPair kv

/-- The text carried by a byte string (total function; used only under a
validity hypothesis). -/
def decStr (bs : List Nat) : String := String.mk ((utf8Decode? bs).getD [])

/-- The triples a correct decode of the stream should produce, record by
record, starting at record index base. -/
def expectedFrom (base : Nat) :
    List (List (List Nat × List Nat)) → List (Nat × String × String)
  | [] => []
  | ps :: rs =>
    ps.map (fun kv => (base, decStr kv.1, decStr kv.2)) ++ expectedFrom (base + 1) rs

theorem encU32le_decode {n : Nat} (h : n < 2 ^ 32) :
    n % 256 + 256 * (n / 256 % 256) + 65536 * (n / 65536 % 256) +
      16777216 * (n / 16777216 % 256) = n := by
  omega

theorem pyStep_root_eof (idx : Option Nat) (kb vb : List Nat) :
    pyGetNextKvp ⟨[], .Root, idx, kb, vb⟩ =
      .exhausted ⟨[], .Eof, idx, kb, vb⟩ := by
  rw [pyGetNextKvp_eq]
  simp only [pyAdvance, pyExpectTags, reduceCtorEq, reduceIte]
  rw [pyGetNextKvp_eq]
  simp

theorem pyStep_root_dict (rest : List Nat) (idx : Option Nat) (kb vb : List Nat) :
    pyGetNextKvp ⟨0x7B :: rest, .Root, idx, kb, vb⟩ =
      pyGetNextKvp ⟨rest, .Dict, some (pyNextIdx idx), kb, vb⟩ := by
  rw [pyGetNextKvp_eq]
  simp [pyAdvance, pyExpectTags, pyTagFromByte]

theorem pyStep_dict_string (rest : List Nat) (idx : Option Nat) (kb vb : List Nat) :
    pyGetNextKvp ⟨0x73 :: rest, .Dict, idx, kb, vb⟩ =
      pyGetNextKvp ⟨rest, .Key, idx, kb, vb⟩ := by
  rw [pyGetNextKvp_eq]
  simp [pyAdvance, pyExpectTags, pyTagFromByte]

theorem pyStep_dict_null (rest : List Nat) (idx : Option Nat) (kb vb : List Nat) :
    pyGetNextKvp ⟨0x30 :: rest, .Dict, idx, kb, vb⟩ =
      pyGetNextKvp ⟨rest, .Root, idx, kb, vb⟩ := by
  rw [pyGetNextKvp_eq]
  simp [pyAdvance, pyExpectTags, pyTagFromByte]

theorem take_len_append {α : Type} (l1 l2 : List α) :
    (l1 ++ l2).take l1.length = l1 := by
  rw [List.take_append_of_le_length (Nat.le_refl _), List.take_length]

theorem drop_len_append {α : Type} (l1 l2 : List α) :
    (l1 ++ l2).drop l1.length = l2 := by
  rw [List.drop_append_of_le_length (Nat.le_refl _), List.drop_length, List.nil_append]

theorem pyReadString_enc (s tail : List Nat) (hs : s.length < 2 ^ 32) :
    pyReadString (encU32le s.length ++ (s ++ tail)) = .ok (s, tail) := by
  simp only [encU32le, List.cons_append, List.nil_append, pyReadString]
  rw [encU32le_decode hs]
  rw [if_pos (by simp [List.length_append])]
  rw [take_len_append, drop_len_append]

theorem pyStep_key (k rest : List Nat) (idx : Option Nat) (kb vb : List Nat)
    (hk : k.length < 2 ^ 32) :
    pyGetNextKvp ⟨encU32le k.length ++ (k ++ 0x73 :: rest), .Key, idx, kb, vb⟩ =
      pyGetNextKvp ⟨rest, .Value, idx, k, vb⟩ := by
  rw [pyGetNextKvp_eq]
  have hread := pyReadString_enc k (0x73 :: rest) hk
  simp [pyAdvance, hread, pyExpectTags, pyTagFromByte]

theorem pyStep_value_string (v rest : List Nat) (i : Nat) (k vb : List Nat)
    (hv : v.length < 2 ^ 32) (hdk : (utf8Decode? k).isSome)
    (hdv : (utf8Decode? v).isSome) :
    pyGetNextKvp ⟨encU32le v.length ++ (v ++ 0x73 :: rest), .Value, some i, k, vb⟩ =
      .yield ⟨rest, .Key, some i, k, v⟩ (i, decStr k, decStr v) := by
  rw [pyGetNextKvp_eq]
  have hread := pyReadString_enc v (0x73 :: rest) hv
  obtain ⟨dk, hdk⟩ := Option.isSome_iff_exists.mp hdk
  obtain ⟨dv, hdv⟩ := Option.isSome_iff_exists.mp hdv
  simp [pyAdvance, hread, pyExpectTags, pyTagFromByte, hdk, hdv, decStr]

theorem pyStep_value_null (v rest : List Nat) (i : Nat) (k vb : List Nat)
    (hv : v.length < 2 ^ 32) (hdk : (utf8Decode? k).isSome)
    (hdv : (utf8Decode? v).isSome) :
    pyGetNextKvp ⟨encU32le v.length ++ (v ++ 0x30 :: rest), .Value, some i, k, vb⟩ =
      .yield ⟨rest, .Root, some i, k, v⟩ (i, decStr k, decStr v) := by
  rw [pyGetNextKvp_eq]
  have hread := pyReadString_enc v (0x30 :: rest) hv
  obtain ⟨dk, hdk⟩ := Option.isSome_iff_exists.mp hdk
  obtain ⟨dv, hdv⟩ := Option.isSome_iff_exists.mp hdv
  simp [pyAdvance, hread, pyExpectTags, pyTagFromByte, hdk, hdv, decStr]

theorem pyRunAll_congr {p q : P4PyDictParser}
    (h : pyGetNextKvp p = pyGetNextKvp q) : pyRunAll p = pyRunAll q := by
  rw [pyRunAll_eq, pyRunAll_eq, h]

/-- Full correctness of the binary decoder on encoded streams: from the Root
state, a validly encoded stream is decoded into exactly one triple per pair,
record by record, with record indices assigned consecutively from the next
index. -/
theorem pyParse_encStream :
    ∀ rs (idx : Option Nat) (kb vb : List Nat), ValidStream rs →
      pyRunAll ⟨encStream rs, .Root, idx, kb, vb⟩ =
        .finished (expectedFrom (pyNextIdx idx) rs) := by
  intro rs
  induction rs with
  | nil =>
    intro idx kb vb _
    rw [show encStream [] = [] from rfl, pyRunAll_eq, pyStep_root_eof]
    rfl
  | cons ps rs ih =>
    intro idx kb vb hv
    have hrs : ValidStream rs := fun r hr kv hkv =>
      hv r (List.mem_cons_of_mem _ hr) kv hkv
    have hKey : ∀ tl k v i (kb vb : List Nat), ValidPair (k, v) →
        (∀ kv ∈ tl, ValidPair kv) →
        pyRunAll ⟨encU32le k.length ++ (k ++ 0x73 ::
            (encU32le v.length ++ (v ++ (encPairs tl ++ 0x30 :: encStream rs)))),
          .Key, some i, kb, vb⟩ =
          .finished ((i, decStr k, decStr v) ::
            (tl.map (fun kv => (i, decStr kv.1, decStr kv.2)) ++
              expectedFrom (i + 1) rs)) := by
      intro tl
      induction tl with
      | nil =>
        intro k v i kb vb hkv _
        obtain ⟨hk1, hk2, hk3, hk4⟩ := hkv
        have e1 : encPairs ([] : List (List Nat × List Nat)) ++ 0x30 :: encStream rs =
            0x30 :: encStream rs := by simp [encPairs]
        have h1 : pyGetNextKvp ⟨encU32le k.length ++ (k ++ 0x73 ::
              (encU32le v.length ++ (v ++ (encPairs [] ++ 0x30 :: encStream rs)))),
            .Key, some i, kb, vb⟩ =
            .yield ⟨encStream rs, .Root, some i, k, v⟩ (i, decStr k, decStr v) := by
          rw [e1, pyStep_key _ _ _ _ _ hk1, pyStep_value_null _ _ _ _ _ hk2 hk3 hk4]
        rw [pyRunAll_eq, h1]
        simp only []
        rw [ih (some i) k v hrs]
        simp [pyNextIdx]
      | cons kv2 tl2 ihtl =>
        intro k v i kb vb hkv htl
        obtain ⟨k2, v2⟩ := kv2
        obtain ⟨hk1, hk2, hk3, hk4⟩ := hkv
        have e1 : encPairs ((k2, v2) :: tl2) ++ 0x30 :: encStream rs =
            0x73 :: (encU32le k2.length ++ (k2 ++ 0x73 ::
              (encU32le v2.length ++ (v2 ++ (encPairs tl2 ++ 0x30 :: encStream rs))))) := by
          simp [encPairs, encPair, encString, List.append_assoc]
        have h1 : pyGetNextKvp ⟨encU32le k.length ++ (k ++ 0x73 ::
              (encU32le v.length ++ (v ++ (encPairs ((k2, v2) :: tl2) ++
                0x30 :: encStream rs)))), .Key, some i, kb, vb⟩ =
            .yield ⟨encU32le k2.length ++ (k2 ++ 0x73 ::
              (encU32le v2.length ++ (v2 ++ (encPairs tl2 ++ 0x30 :: encStream rs)))),
              .Key, some i, k, v⟩ (i, decStr k, decStr v) := by
          rw [e1, pyStep_key _ _ _ _ _ hk1, pyStep_value_string _ _ _ _ _ hk2 hk3 hk4]
        rw [pyRunAll_eq, h1]
        simp only []
        rw [ihtl k2 v2 i k v (htl _ (List.mem_cons_self _ _))
          (fun kv hkv => htl _ (List.mem_cons_of_mem _ hkv))]
        simp
    have e0 : encStream (ps :: rs) = 0x7B :: (encPairs ps ++ 0x30 :: encStream rs) := by
      simp [encStream, encRecord, List.append_assoc]
    cases ps with
    | nil =>
      have h1 : pyGetNextKvp ⟨encStream ([] :: rs), .Root, idx, kb, vb⟩ =
          pyGetNextKvp ⟨encStream rs, .Root, some (pyNextIdx idx), kb, vb⟩ := by
        rw [e0, pyStep_root_dict]
        have e1 : encPairs ([] : List (List Nat × List Nat)) ++ 0x30 :: encStream rs =
            0x30 :: encStream rs := by simp [encPairs]
        rw [e1, pyStep_dict_null]
      rw [pyRunAll_congr h1, ih (some (pyNextIdx idx)) kb vb hrs]
      simp [expectedFrom, pyNextIdx]
    | cons kv tl =>
      obtain ⟨k, v⟩ := kv
      have hps := hv ((k, v) :: tl) (List.mem_cons_self _ _)
      have e1 : encPairs ((k, v) :: tl) ++ 0x30 :: encStream rs =
          0x73 :: (encU32le k.length ++ (k ++ 0x73 ::
            (encU32le v.length ++ (v ++ (encPairs tl ++ 0x30 :: encStream rs))))) := by
        simp [encPairs, encPair, encString, List.append_assoc]
      have h1 : pyGetNextKvp ⟨encStream (((k, v) :: tl) :: rs), .Root, idx, kb, vb⟩ =
          pyGetNextKvp ⟨encU32le k.length ++ (k ++ 0x73 ::
            (encU32le v.length ++ (v ++ (encPairs tl ++ 0x30 :: encStream rs)))),
            .Key, some (pyNextIdx idx), kb, vb⟩ := by
        rw [e0, pyStep_root_dict, e1, pyStep_dict_string]
      rw [pyRunAll_congr h1]
      rw [hKey tl k v (pyNextIdx idx) kb vb (hps _ (List.mem_cons_self _ _))
        (fun kv2 h2 => hps _ (List.mem_cons_of_mem _ h2))]
      simp [expectedFrom]

/-- The record-index column a correct decode must produce: each record
contributes one copy of its index per pair, indices consecutive from base. -/
def recordIndexSeq (base : Nat) :
    List (List (List Nat × List Nat)) → List Nat
  | [] => []
  | ps :: rs => List.replicate ps.length base ++ recordIndexSeq (base + 1) rs

theorem expectedFrom_length (rs : List (List (List Nat × List Nat))) :
    ∀ base, (expectedFrom base rs).length = (rs.map List.length).sum := by
  induction rs with
  | nil => intro base; simp [expectedFrom]
  | cons ps rs ih => intro base; simp [expectedFrom, ih]

theorem expectedFrom_fst (rs : List (List (List Nat × List Nat))) :
    ∀ base, (expectedFrom base rs).map Prod.fst = recordIndexSeq base rs := by
  induction rs with
  | nil => intro base; simp [expectedFrom, recordIndexSeq]
  | cons ps rs ih =>
    intro base
    simp [expectedFrom, recordIndexSeq, ih]
    rw [show (Prod.fst ∘ fun kv : List Nat × List Nat =>
        (base, decStr kv.1, decStr kv.2)) = fun _ => base from rfl]
    exact List.map_const' ps base

/-- Claim C2: for every valid binary wire stream, the binary decoder yields
exactly one triple per (key, value) pair in the stream, and the sequence of
record indices is non-decreasing, starts at 0 with the first record, and
increases by exactly 1 at each record boundary (each record contributes a
constant block of its own index, indices consecutive from 0). -/
theorem c2_binary_stream_triples (rs : List (List (List Nat × List Nat)))
    (h : ValidStream rs) :
    pyRunAll (pyInit (encStream rs)) = .finished (expectedFrom 0 rs) ∧
    (expectedFrom 0 rs).length = (rs.map List.length).sum ∧
    (expectedFrom 0 rs).map Prod.fst = recordIndexSeq 0 rs := by
  refine ⟨?_, expectedFrom_length rs 0, expectedFrom_fst rs 0⟩
  simpa [pyInit, pyNextIdx] using pyParse_encStream rs none [] [] h

/-- Concrete wire data exercising claim C2: two non-empty records and one
empty record. -/
def c2rs : List (List (List Nat × List Nat)) :=
  [[(strBytes "k", strBytes "v"), (strBytes "a", strBytes "bc")], [],
   [(strBytes "x", strBytes "y")]]

theorem c2_witness :
    pyRunAll (pyInit (encStream c2rs)) = .finished (expectedFrom 0 c2rs) ∧
    (expectedFrom 0 c2rs).length = (c2rs.map List.length).sum ∧
    (expectedFrom 0 c2rs).map Prod.fst = recordIndexSeq 0 c2rs :=
  c2_binary_stream_triples c2rs (by simp only [ValidStream, ValidPair]; decide)

/-- Claim C5: in the binary decoder, end of input while reading a string
(its 4-byte length prefix, or its body when the prefix promises more bytes
than remain) is the distinct UnexpectedEof error and the pull returns it,
whereas end of input exactly at a record boundary (Root state) is not an
error: the pull reports clean exhaustion. -/
theorem c5_truncation_vs_boundary :
    (∀ p : P4PyDictParser, p.state = .Key ∨ p.state = .Value →
      pyReadString p.input = .error .unexpectedEof →
      pyGetNextKvp p = .err .unexpectedEof) ∧
    (∀ input : List Nat, input.length < 4 →
      pyReadString input = .error .unexpectedEof) ∧
    (∀ a b c d : Nat, ∀ rest : List Nat,
      rest.length < a + 256 * b + 65536 * c + 16777216 * d →
      pyReadString (a :: b :: c :: d :: rest) = .error .unexpectedEof) ∧
    (∀ p : P4PyDictParser, p.state = .Root → p.input = [] →
      pyGetNextKvp p = .exhausted { p with state := .Eof }) := by
  refine ⟨?_, ?_, ?_, ?_⟩
  · intro p hst hrs
    obtain ⟨input, state, idx, kb, vb⟩ := p
    rcases hst with hst | hst <;> subst hst <;>
      · rw [pyGetNextKvp_eq]
        simp [pyAdvance, hrs]
  · intro input h
    rcases input with _ | ⟨a, _ | ⟨b, _ | ⟨c, _ | ⟨d, tl⟩⟩⟩⟩
    · rfl
    · rfl
    · rfl
    · rfl
    · exfalso; simp [List.length_cons] at h; omega
  · intro a b c d rest h
    simp only [pyReadString]
    rw [if_neg (by omega)]
  · intro p hst hin
    obtain ⟨input, state, idx, kb, vb⟩ := p
    subst hst
    simp only at hin
    subst hin
    exact pyStep_root_eof idx kb vb

theorem c5_witness :
    pyGetNextKvp ⟨[0x73], .Key, some 0, [], []⟩ = .err .unexpectedEof ∧
    pyReadString [1, 0] = .error .unexpectedEof ∧
    pyReadString [5, 0, 0, 0, 9, 9] = .error .unexpectedEof ∧
    pyGetNextKvp ⟨[], .Root, none, [], []⟩ = .exhausted ⟨[], .Eof, none, [], []⟩ :=
  ⟨c5_truncation_vs_boundary.1 ⟨[0x73], .Key, some 0, [], []⟩ (Or.inl rfl) (by rfl),
   c5_truncation_vs_boundary.2.1 [1, 0] (by decide),
   c5_truncation_vs_boundary.2.2.1 5 0 0 0 [9, 9] (by decide),
   c5_truncation_vs_boundary.2.2.2 ⟨[], .Root, none, [], []⟩ rfl rfl⟩

/-- Claim C9: on a stream ending immediately after the dict-open tag, and on
a stream ending right after a value string where the String-or-Null
lookahead is required, the binary pull neither yields nor returns an error:
expect_tags maps end of input to the Eof tag outside the accepted set and
the state match hits unreachable!, so the pull panics. -/
theorem c9_lookahead_eof_panics :
    pyGetNextKvp (pyInit [0x7B]) = .panicked ∧
    pyGetNextKvp (pyInit [0x7B, 0x73, 1, 0, 0, 0, 0x6B,
                          0x73, 1, 0, 0, 0, 0x76]) = .panicked := by
  refine ⟨by decide, by decide⟩

/-- Counterexample to claim C8 as stated: on a record whose key bytes are
the invalid UTF-8 byte 0xFF, the pull panics (unwrap inside get_next_kvp);
it does not return an error value to the caller. -/
theorem c8_counterexample :
    pyGetNextKvp (pyInit [0x7B, 0x73, 1, 0, 0, 0, 0xFF,
                          0x73, 1, 0, 0, 0, 0x61, 0x30]) = .panicked := by
  decide

/-- Claim C8 amended: string bytes are interpreted as UTF-8, and a UTF-8
decoding failure on the key or value buffer at yield time makes the pull
panic (str::from_utf8(..).unwrap()), yielding no triple and returning no
error value. -/
theorem c8_amended (p q : P4PyDictParser) (hst : ¬p.state = .Eof)
    (hA : pyAdvance p = .ok true q)
    (hbad : utf8Decode? q.current_key_buffer = none ∨
            utf8Decode? q.current_value_buffer = none) :
    pyGetNextKvp p = .panicked := by
  rw [pyGetNextKvp_eq, if_neg hst, hA]
  rcases hbad with hk | hv
  · simp [hk]
  · rcases hkk : utf8Decode? q.current_key_buffer with _ | dk <;> simp [hv, hkk]

theorem c8_witness :
    pyGetNextKvp ⟨[1, 0, 0, 0, 0x61, 0x30], .Value, some 0, [0xFF], []⟩ =
      .panicked :=
  c8_amended ⟨[1, 0, 0, 0, 0x61, 0x30], .Value, some 0, [0xFF], []⟩
    ⟨[], .Root, some 0, [0xFF], [0x61]⟩ (by decide) (by decide)
    (Or.inl (by decide))

/-- Once the binary pull has reported exhaustion, the parser state it
returned is Eof, and every later pull returns the same exhaustion. -/
theorem pyExhausted_stable {p q : P4PyDictParser}
    (h : pyGetNextKvp p = .exhausted q) : pyGetNextKvp q = .exhausted q := by
  have hq := pyGetNextKvp_exhausted_eof (pyMeasure p) p q (Nat.le_refl _) h
  rw [pyGetNextKvp_eq, if_pos hq]

/-! ## Text decoder: src/parsers/ztag.rs -/

/-- ZtagParseState from ztag.rs. -/
inductive ZtagParseState where
  | Root              -- next can be a dict or eof
  | SingleLineYield   -- a complete one-line field ready to yield
  | MultiLineYield    -- completed multi-line field ready to yield
  | MultiLineInternal -- accumulating a multi-line value
  | EmptyLine         -- blank line, ignored
  | Eof               -- terminal
deriving DecidableEq, Repr

/-- ZtagParseState::is_record_complete. -/
def ztagIsRecordComplete : ZtagParseState → Bool
  | .Root | .SingleLineYield | .MultiLineYield | .EmptyLine => true
  | _ => false

/-- ZtagParseState::should_yield. -/
def ztagShouldYield : ZtagParseState → Bool
  | .SingleLineYield | .MultiLineYield => true
  | _ => false

/-- The io errors the text decoder can return: read_line rejecting invalid
UTF-8 bytes, and the InvalidData error for a field line with no space after
the key ("Line does not contain a key-value pair"). -/
inductive ZtagError where
  | invalidUtf8
  | noKvp
deriving DecidableEq, Repr

/-- BufRead::read_line framing: the bytes up to and including the first
newline byte (everything to end of input when no newline remains). -/
def takeLine : List Nat → List Nat
  | [] => []
  | b :: rest => if b = 10 then [b] else b :: takeLine rest

/-- read_line: take one line and validate it as UTF-8 (read_line returns an
InvalidData io error on invalid UTF-8).  An empty line means end of input
(read_line returned 0). -/
def ztagReadLine (input : List Nat) : Except ZtagError (List Nat × List Nat) :=
  let line := takeLine input
  if (utf8Decode? line).isSome then .ok (line, input.drop line.length)
  else .error .invalidUtf8

/-- P4ZtagParser state: unread bytes plus the fields of the Rust struct. -/
structure P4ZtagParser where
  input : List Nat
  current_dict_index : Option Nat
  state : ZtagParseState
  line_buffer : List Nat
  pending_line_buffer : Option (List Nat)
  dict_delimiter_key : Option (List Nat)
deriving DecidableEq, Repr

/-- P4ZtagParser::new. -/
def ztagInit (bytes : List Nat) (delim : Option (List Nat)) : P4ZtagParser :=
  { input := bytes
    current_dict_index := none
    state := .Root
    line_buffer := []
    pending_line_buffer := none
    dict_delimiter_key := delim }

/-- The field marker "... " (PREFIX in ztag.rs). -/
def ztagFieldMarker : List Nat := strBytes "... "

/-- MULTILINE_VAR_PREFIXES from ztag.rs: the lines opening multi-line
values, matched by literal line start. -/
def ztagMultilineMarkers : List (List Nat) := [strBytes "... desc "]

/-- The final classification shared by all advance branches that loaded a
fresh or extended line: a multi-line opener continues accumulating,
anything else is a single-line yield. -/
def ztagClassify (buf : List Nat) : ZtagParseState :=
  if ztagMultilineMarkers.any (fun m => m.isPrefixOf buf) then .MultiLineInternal
  else .SingleLineYield

/-- Result of P4ZtagParser::advance: the state it returns plus the mutated
parser, an error, or the assert_ne!(state, Eof) panic. -/
inductive ZtagAdvanceResult where
  | ok (st : ZtagParseState) (p : P4ZtagParser)
  | err (e : ZtagError)
  | panicked
deriving DecidableEq, Repr

/-- P4ZtagParser::advance. -/
def ztagAdvance (p : P4ZtagParser) : ZtagAdvanceResult :=
  if p.state = .Eof then .panicked  -- assert_ne!(self.state, Eof)
  else
    match p.pending_line_buffer with
    | some pending =>
      .ok (ztagClassify pending)
        { p with line_buffer := pending, pending_line_buffer := none }
    | none =>
      if ztagIsRecordComplete p.state then
        match ztagReadLine p.input with
        | .error e => .err e
        | .ok (line, rest) =>
          if line = [] then
            -- read_line returned 0: end of file (the buffer was cleared)
            .ok .Eof { p with line_buffer := [], input := rest }
          else if line.length = 1 ∧ line.headD 0 = 10 then
            .ok .EmptyLine { p with line_buffer := line, input := rest }
          else
            .ok (ztagClassify line) { p with line_buffer := line, input := rest }
      else
        match ztagReadLine p.input with
        | .error e => .err e
        | .ok (line, rest) =>
          if line = [] then
            -- end of file: yield the accumulated record first
            .ok .MultiLineYield { p with input := rest }
          else if ztagFieldMarker.isPrefixOf line then
            .ok .MultiLineYield
              { p with pending_line_buffer := some line, input := rest }
          else
            .ok (ztagClassify (p.line_buffer ++ line))
              { p with line_buffer := p.line_buffer ++ line, input := rest }

/-- str::is_char_boundary on the byte list. -/
def isCharBoundary (line : List Nat) (i : Nat) : Bool :=
  i = 0 ∨ i = line.length ∨ (line.getD i 0 < 0x80 ∨ 0xC0 ≤ line.getD i 0)

/-- Result of P4ZtagParser::get_kvp_refs: the key and value slices, the
InvalidData error, or a panic (the starts-with assert, or byte slicing at
an invalid index). -/
inductive ZtagKvpResult where
  | ok (key value : List Nat)
  | err (e : ZtagError)
  | panicked
deriving DecidableEq, Repr

/-- P4ZtagParser::get_kvp_refs.  The line must start with "... " (assert,
panic otherwise); the key ends at the first space after the marker; the
value is the rest of the line with the trailing two bytes dropped when they
are CR LF and the trailing one byte dropped otherwise.  Slicing panics are
modelled: the len-2 probe and the value slice require char boundaries and
an ordered range, as in Rust. -/
def ztagGetKvpRefs (line : List Nat) : ZtagKvpResult :=
  if ¬ ztagFieldMarker.isPrefixOf line then .panicked
  else
    match (line.drop 4).findIdx? (fun b => b = 32) with
    | none => .err .noKvp
    | some keyEnd =>
      if ¬ isCharBoundary line (line.length - 2) then .panicked
      else
        let trim := if line.drop (line.length - 2) = [13, 10] then line.length - 2
                    else line.length - 1
        let start := 4 + keyEnd + 1
        if start ≤ trim ∧ isCharBoundary line start ∧ isCharBoundary line trim then
          .ok ((line.drop 4).take keyEnd) ((line.drop start).take (trim - start))
        else .panicked

/-- Outcome of one pull of the text decoder. -/
inductive ZtagPullResult where
  | yield (p : P4ZtagParser) (t : Nat × List Nat × List Nat)
  | exhausted (p : P4ZtagParser)
  | err (e : ZtagError)
  | panicked
deriving DecidableEq, Repr

/-- Loop measure for the text pull: every looping advance either consumes
input or just moves the pending line into the buffer. -/
def ztagMeasure (p : P4ZtagParser) : Nat :=
  p.input.length * 2 + (if p.pending_line_buffer.isSome then 1 else 0)

/-- Fuel-indexed body of P4ZtagParser::get_next_kvp; ztagGetNextKvp below
supplies sufficient fuel and ztagGetNextKvp_eq restates the source loop. -/
def ztagPullFuel : Nat → P4ZtagParser → ZtagPullResult
  | 0, _ => .panicked
  | f + 1, p =>
    match ztagAdvance p with
    | .panicked => .panicked
    | .err e => .err e
    | .ok st q =>
      let q1 := { q with state := st }
      if ztagShouldYield st then
        match ztagGetKvpRefs q1.line_buffer with
        | .panicked => .panicked
        | .err e => .err e
        | .ok key value =>
          -- the dict index is incremented before the yield on a delimiter key
          let q2 := if some key = q1.dict_delimiter_key then
              { q1 with current_dict_index := some (pyNextIdx q1.current_dict_index) }
            else q1
          .yield q2 (q2.current_dict_index.getD 0, key, value)
      else if st = .Eof then .exhausted q1
      else ztagPullFuel f q1

theorem takeLine_length : ∀ input : List Nat, (takeLine input).length ≤ input.length := by
  intro input
  induction input with
  | nil => simp [takeLine]
  | cons b rest ih =>
    simp only [takeLine]
    split <;> simp [List.length_cons]
    omega

theorem takeLine_nil : ∀ input : List Nat, takeLine input = [] → input = [] := by
  intro input h
  cases input with
  | nil => rfl
  | cons b rest =>
    simp only [takeLine] at h
    split at h <;> simp at h

theorem ztagReadLine_spec {input line rest : List Nat}
    (h : ztagReadLine input = .ok (line, rest)) :
    line = takeLine input ∧ rest = input.drop line.length := by
  simp only [ztagReadLine] at h
  split at h
  · simp only [Except.ok.injEq, Prod.mk.injEq] at h
    exact ⟨h.1.symm, by rw [← h.2, h.1]⟩
  · exact Except.noConfusion h

theorem ztagAdvance_measure {p : P4ZtagParser} {st : ZtagParseState}
    {q : P4ZtagParser} (h : ztagAdvance p = .ok st q) :
    ztagMeasure q < ztagMeasure p ∨
      (ztagMeasure q = ztagMeasure p ∧ (st = .Eof ∨ st = .MultiLineYield)) := by
  obtain ⟨input, idx, state, buf, pending, delim⟩ := p
  simp only [ztagAdvance] at h
  split at h
  · exact ZtagAdvanceResult.noConfusion h
  · cases pending with
    | some pend =>
      simp only [] at h
      injection h with h1 h2
      subst h2
      left
      simp [ztagMeasure]
    | none =>
      simp only [] at h
      split at h
      · -- record complete: fresh read
        rcases hrl : ztagReadLine input with e | ⟨line, rest⟩ <;> rw [hrl] at h
        · exact ZtagAdvanceResult.noConfusion h
        · obtain ⟨hline, hrest⟩ := ztagReadLine_spec hrl
          simp only [] at h
          split at h
          · -- line = [], end of file
            rename_i hemp
            injection h with h1 h2
            subst h2
            right
            have : input = [] := takeLine_nil input (hemp ▸ hline).symm
            subst this
            constructor
            · simp [ztagMeasure, hrest, hemp]
            · exact Or.inl h1.symm
          · split at h <;>
              · rename_i hemp h2'
                injection h with h1 h2
                subst h2
                left
                have hlen : 1 ≤ line.length := by
                  cases line with
                  | nil => exact absurd rfl hemp
                  | cons a tl => simp
                have hle : line.length ≤ input.length := hline ▸ takeLine_length input
                simp only [ztagMeasure, hrest, List.length_drop]
                omega
      · -- continuation read
        rcases hrl : ztagReadLine input with e | ⟨line, rest⟩ <;> rw [hrl] at h
        · exact ZtagAdvanceResult.noConfusion h
        · obtain ⟨hline, hrest⟩ := ztagReadLine_spec hrl
          simp only [] at h
          split at h
          · rename_i hemp
            injection h with h1 h2
            subst h2
            right
            have : input = [] := takeLine_nil input (hemp ▸ hline).symm
            subst this
            constructor
            · simp [ztagMeasure, hrest]
            · exact Or.inr h1.symm
          · rename_i hemp
            have hlen : 1 ≤ line.length := by
              cases line with
              | nil => exact absurd rfl hemp
              | cons a tl => simp
            have hle : line.length ≤ input.length := hline ▸ takeLine_length input
            split at h <;>
              · injection h with h1 h2
                subst h2
                left
                simp only [ztagMeasure, hrest, List.length_drop]
                split <;> omega

theorem ztagPullFuel_congr :
    ∀ f1 f2 p, ztagMeasure p < f1 → ztagMeasure p < f2 →
      ztagPullFuel f1 p = ztagPullFuel f2 p := by
  intro f1
  induction f1 with
  | zero => intro f2 p h1 h2; omega
  | succ f1 ih =>
    intro f2 p h1 h2
    cases f2 with
    | zero => omega
    | succ f2 =>
      simp only [ztagPullFuel]
      cases hA : ztagAdvance p with
      | err e => rfl
      | panicked => rfl
      | ok st q =>
        by_cases hy : ztagShouldYield st
        · simp [hy]
        · simp only [hy, Bool.false_eq_true, if_false]
          by_cases he : st = .Eof
          · simp [he]
          · simp only [if_neg he]
            have hm : ztagMeasure { q with state := st } < ztagMeasure p := by
              rcases ztagAdvance_measure hA with hlt | ⟨heq, hor⟩
              · simpa [ztagMeasure] using hlt
              · exfalso
                rcases hor with h' | h'
                · exact he h'
                · rw [h'] at hy; exact hy rfl
            exact ih f2 _ (by omega) (by omega)

/-- P4ZtagParser::get_next_kvp: loop advancing, assign the returned state,
yield on SingleLineYield or MultiLineYield (incrementing the dict index
first when the key is the delimiter key), finish on Eof. -/
def ztagGetNextKvp (p : P4ZtagParser) : ZtagPullResult :=
  ztagPullFuel (ztagMeasure p + 1) p

/-- ztagGetNextKvp satisfies the loop equation of the source verbatim. -/
theorem ztagGetNextKvp_eq (p : P4ZtagParser) :
    ztagGetNextKvp p =
      match ztagAdvance p with
      | .panicked => .panicked
      | .err e => .err e
      | .ok st q =>
        let q1 := { q with state := st }
        if ztagShouldYield st then
          match ztagGetKvpRefs q1.line_buffer with
          | .panicked => .panicked
          | .err e => .err e
          | .ok key value =>
            let q2 := if some key = q1.dict_delimiter_key then
                { q1 with current_dict_index := some (pyNextIdx q1.current_dict_index) }
              else q1
            .yield q2 (q2.current_dict_index.getD 0, key, value)
        else if st = .Eof then .exhausted q1
        else ztagGetNextKvp q1 := by
  unfold ztagGetNextKvp
  rw [ztagPullFuel]
  cases hA : ztagAdvance p with
  | err e => rfl
  | panicked => rfl
  | ok st q =>
    by_cases hy : ztagShouldYield st
    · simp [hy]
    · simp only [hy, Bool.false_eq_true, if_false]
      by_cases he : st = .Eof
      · simp [he]
      · simp only [if_neg he]
        have hm : ztagMeasure { q with state := st } < ztagMeasure p := by
          rcases ztagAdvance_measure hA with hlt | ⟨heq, hor⟩
          · simpa [ztagMeasure] using hlt
          · exfalso
            rcases hor with h' | h'
            · exact he h'
            · rw [h'] at hy; exact hy rfl
        exact ztagPullFuel_congr _ _ _ (by omega) (by omega)

/-- Result of pulling the text decoder to exhaustion. -/
inductive ZtagRunResult where
  | finished (ts : List (Nat × List Nat × List Nat))
  | failed (e : ZtagError)
  | crashed
deriving DecidableEq, Repr

/-- Fuel-indexed driver for the text decoder (none = fuel ran out; every
concrete use below carries visibly sufficient fuel). -/
def ztagRunFuel : Nat → P4ZtagParser → Option ZtagRunResult
  | 0, _ => none
  | f + 1, p =>
    match ztagGetNextKvp p with
    | .exhausted _ => some (.finished [])
    | .err e => some (.failed e)
    | .panicked => some .crashed
    | .yield q t =>
      (ztagRunFuel f q).map fun r =>
        match r with
        | .finished ts => .finished (t :: ts)
        | r => r

/-- The text-format sample of the spec and of the ztag.rs unit test, with
delimiter key "desc". -/
def c1Input : List Nat := strBytes "... changeType public\n... change 12345\n... desc BLAHBLAH\nBLAHBLAH\n... zambo aaa\n... zoop bbb\n\n... desc WOOWOO\nWOWWOW\n... desc SNASNA\n... desc SNASNA2\n"

/-- The triples the claim (and the unit test in ztag.rs) expects. -/
def c1Claimed : List (Nat × List Nat × List Nat) :=
  [(0, strBytes "changeType", strBytes "public"),
   (0, strBytes "change", strBytes "12345"),
   (0, strBytes "desc", strBytes "BLAHBLAH\nBLAHBLAH"),
   (1, strBytes "zambo", strBytes "aaa"),
   (1, strBytes "zoop", strBytes "bbb"),
   (1, strBytes "desc", strBytes "WOOWOO\nWOWWOW"),
   (2, strBytes "desc", strBytes "SNASNA"),
   (3, strBytes "desc", strBytes "SNASNA2")]

set_option maxRecDepth 40000 in
/-- Claim C1 evaluated on the code: the decoder yields zambo and zoop at
record index 0, not 1 — the index only changes when a delimiter-key pair is
yielded, so fields following the first desc inside the first record keep
index 0.  This contradicts both the claim and the expected array of the
unit test in ztag.rs (the code fails its own test); all other positions
match. -/
theorem c1_ztag_actual_output :
    ztagRunFuel 30 (ztagInit c1Input (some (strBytes "desc"))) =
      some (.finished
        [(0, strBytes "changeType", strBytes "public"),
         (0, strBytes "change", strBytes "12345"),
         (0, strBytes "desc", strBytes "BLAHBLAH\nBLAHBLAH"),
         (0, strBytes "zambo", strBytes "aaa"),
         (0, strBytes "zoop", strBytes "bbb"),
         (1, strBytes "desc", strBytes "WOOWOO\nWOWWOW"),
         (2, strBytes "desc", strBytes "SNASNA"),
         (3, strBytes "desc", strBytes "SNASNA2")]) ∧
    ztagRunFuel 30 (ztagInit c1Input (some (strBytes "desc"))) ≠
      some (.finished c1Claimed) := by
  refine ⟨by decide, by decide⟩


/-- Claim C10: a line at record start that is neither the single byte LF
nor marked with "... " — here the blank line written as CR LF — is not
treated as a record separator and produces no error: advance classifies it
as a yieldable single-line field, and the pull then fails the starts-with
assert in get_kvp_refs, a panic. -/
theorem c10_crlf_line :
    ztagAdvance (ztagInit (strBytes "\r\n") none) =
      .ok .SingleLineYield ⟨[], none, .Root, strBytes "\r\n", none, none⟩ ∧
    ztagGetNextKvp (ztagInit (strBytes "\r\n") none) = .panicked := by
  refine ⟨by decide, by decide⟩

theorem ztagGetNextKvp_exhausted_eof :
    ∀ m p q, ztagMeasure p ≤ m → ztagGetNextKvp p = .exhausted q →
      q.state = .Eof := by
  intro m
  induction m with
  | zero =>
    intro p q hm h
    rw [ztagGetNextKvp_eq] at h
    cases hA : ztagAdvance p with
    | err e => rw [hA] at h; exact ZtagPullResult.noConfusion h
    | panicked => rw [hA] at h; exact ZtagPullResult.noConfusion h
    | ok st q' =>
      rw [hA] at h
      simp only [] at h
      split at h
      · split at h
        · exact ZtagPullResult.noConfusion h
        · exact ZtagPullResult.noConfusion h
        · exact ZtagPullResult.noConfusion h
      · split at h
        · rename_i hst
          injection h with hq
          rw [← hq, hst]
        · rename_i hy he
          exfalso
          rcases ztagAdvance_measure hA with hlt | ⟨heq, hor⟩
          · have : ztagMeasure { q' with state := st } < ztagMeasure p := by
              simpa [ztagMeasure] using hlt
            omega
          · rcases hor with h' | h'
            · exact he h'
            · rw [h'] at hy; simp [ztagShouldYield] at hy
  | succ m ih =>
    intro p q hm h
    rw [ztagGetNextKvp_eq] at h
    cases hA : ztagAdvance p with
    | err e => rw [hA] at h; exact ZtagPullResult.noConfusion h
    | panicked => rw [hA] at h; exact ZtagPullResult.noConfusion h
    | ok st q' =>
      rw [hA] at h
      simp only [] at h
      split at h
      · split at h
        · exact ZtagPullResult.noConfusion h
        · exact ZtagPullResult.noConfusion h
        · exact ZtagPullResult.noConfusion h
      · split at h
        · rename_i hst
          injection h with hq
          rw [← hq, hst]
        · rename_i hy he
          have hlt : ztagMeasure { q' with state := st } < ztagMeasure p := by
            rcases ztagAdvance_measure hA with hlt | ⟨heq, hor⟩
            · simpa [ztagMeasure] using hlt
            · exfalso
              rcases hor with h' | h'
              · exact he h'
              · rw [h'] at hy; simp [ztagShouldYield] at hy
          exact ih _ q (by omega) h

/-- Counterexample to claim C4 as stated: for the text decoder on empty
input, the first pull reports clean exhaustion, but the second pull does
not return no-more-items again: it trips assert_ne!(state, Eof) in advance
and panics. -/
theorem c4_counterexample :
    ztagGetNextKvp (ztagInit [] none) =
      .exhausted ⟨[], none, .Eof, [], none, none⟩ ∧
    ztagGetNextKvp ⟨[], none, .Eof, [], none, none⟩ = .panicked := by
  refine ⟨by decide, by decide⟩

/-- Claim C4 amended: the binary decoder's exhaustion is a stable terminal
state — once a pull returns no-more-items every later pull does too.  The
text decoder returns no-more-items once, on the pull that enters the Eof
state; any pull after that violates the assert_ne!(state, Eof) assertion in
advance and panics instead of returning no-more-items. -/
theorem c4_amended :
    (∀ p q : P4PyDictParser, pyGetNextKvp p = .exhausted q →
      pyGetNextKvp q = .exhausted q) ∧
    (∀ p q : P4ZtagParser, ztagGetNextKvp p = .exhausted q → q.state = .Eof) ∧
    (∀ q : P4ZtagParser, q.state = .Eof → ztagGetNextKvp q = .panicked) := by
  refine ⟨?_, ?_, ?_⟩
  · intro p q h
    exact pyExhausted_stable h
  · intro p q h
    exact ztagGetNextKvp_exhausted_eof (ztagMeasure p) p q (Nat.le_refl _) h
  · intro q h
    rw [ztagGetNextKvp_eq]
    simp [ztagAdvance, h]

theorem c4_witness :
    pyGetNextKvp ⟨[], .Eof, none, [], []⟩ = .exhausted ⟨[], .Eof, none, [], []⟩ ∧
    (⟨[], none, .Eof, [], none, none⟩ : P4ZtagParser).state = .Eof ∧
    ztagGetNextKvp ⟨[], none, .Eof, [], none, none⟩ = .panicked :=
  ⟨c4_amended.1 ⟨[], .Root, none, [], []⟩ ⟨[], .Eof, none, [], []⟩ (by decide),
   c4_amended.2.1 (ztagInit [] none) ⟨[], none, .Eof, [], none, none⟩ (by decide),
   c4_amended.2.2 ⟨[], none, .Eof, [], none, none⟩ rfl⟩

/-- Counterexample to claim C7 as stated: a field line whose final (only)
line carries no trailing terminator at all still loses its last character:
"... key value" with no newline yields value "valu". -/
theorem c7_counterexample :
    ztagGetNextKvp (ztagInit (strBytes "... key value") none) =
      .yield ⟨[], none, .SingleLineYield, strBytes "... key value", none, none⟩
        (0, strBytes "key", strBytes "valu") := by
  decide

theorem findIdx?_append_cons {α : Type} {p : α → Bool} {k : List α}
    (hk : ∀ b ∈ k, p b = false) {a : α} (ha : p a = true) (tail : List α) :
    ∀ i, (k ++ a :: tail).findIdx? p i = some (i + k.length) := by
  induction k with
  | nil =>
    intro i
    simp [List.findIdx?_cons, ha]
  | cons b k' ih =>
    intro i
    have hb : p b = false := hk b (List.mem_cons_self _ _)
    have hk' : ∀ b ∈ k', p b = false := fun c hc => hk c (List.mem_cons_of_mem _ hc)
    simp only [List.cons_append, List.findIdx?_cons, hb, Bool.false_eq_true, if_false]
    rw [ih hk' (i + 1)]
    congr 1
    simp [List.length_cons]
    omega

theorem isCharBoundary_of_ascii {line : List Nat}
    (h : ∀ b ∈ line, b < 128) (i : Nat) : isCharBoundary line i = true := by
  have hunf : isCharBoundary line i =
      decide (i = 0 ∨ i = line.length ∨
        (line.getD i 0 < 0x80 ∨ 0xC0 ≤ line.getD i 0)) := rfl
  rw [hunf, decide_eq_true_eq]
  by_cases hi : i < line.length
  · refine Or.inr (Or.inr (Or.inl ?_))
    have hmem : line.getD i 0 ∈ line := by
      rw [List.getD_eq_getElem?_getD, List.getElem?_eq_getElem hi, Option.getD_some]
      exact List.getElem_mem hi
    exact h _ hmem
  · by_cases hi2 : i = line.length
    · exact Or.inr (Or.inl hi2)
    · refine Or.inr (Or.inr (Or.inl ?_))
      rw [List.getD_eq_getElem?_getD, List.getElem?_eq_none (by omega), Option.getD_none]
      omega

theorem ztagGetKvpRefs_reduce (k tail : List Nat)
    (hkc : ∀ b ∈ k, b < 128 ∧ b ≠ 32 ∧ b ≠ 10) (htail : ∀ b ∈ tail, b < 128) :
    ztagGetKvpRefs (ztagFieldMarker ++ (k ++ 32 :: tail)) =
      (if (ztagFieldMarker ++ (k ++ 32 :: tail)).drop
            ((ztagFieldMarker ++ (k ++ 32 :: tail)).length - 2) = [13, 10] then
        (if 4 + k.length + 1 ≤ (ztagFieldMarker ++ (k ++ 32 :: tail)).length - 2 then
          .ok k (((ztagFieldMarker ++ (k ++ 32 :: tail)).drop (4 + k.length + 1)).take
            ((ztagFieldMarker ++ (k ++ 32 :: tail)).length - 2 - (4 + k.length + 1)))
        else .panicked)
      else
        (if 4 + k.length + 1 ≤ (ztagFieldMarker ++ (k ++ 32 :: tail)).length - 1 then
          .ok k (((ztagFieldMarker ++ (k ++ 32 :: tail)).drop (4 + k.length + 1)).take
            ((ztagFieldMarker ++ (k ++ 32 :: tail)).length - 1 - (4 + k.length + 1)))
        else .panicked)) := by
  have hall : ∀ b ∈ ztagFieldMarker ++ (k ++ 32 :: tail), b < 128 := by
    intro b hb
    rw [show ztagFieldMarker = [46, 46, 46, 32] from rfl] at hb
    simp only [List.mem_append, List.mem_cons, List.not_mem_nil, or_false] at hb
    rcases hb with (h | h | h | h) | h | h | h
    · omega
    · omega
    · omega
    · omega
    · exact (hkc b h).1
    · omega
    · exact htail b h
  have hpre : ztagFieldMarker.isPrefixOf (ztagFieldMarker ++ (k ++ 32 :: tail)) = true := by
    rw [List.isPrefixOf_iff_prefix]
    exact List.prefix_append _ _
  have hdrop4 : (ztagFieldMarker ++ (k ++ 32 :: tail)).drop 4 = k ++ 32 :: tail := by
    rw [show (4 : Nat) = ztagFieldMarker.length from rfl, drop_len_append]
  have hfind : ((ztagFieldMarker ++ (k ++ 32 :: tail)).drop 4).findIdx?
      (fun b => b = 32) = some k.length := by
    rw [hdrop4]
    have := @findIdx?_append_cons Nat (fun b => decide (b = 32)) k
      (fun b hb => by simp [(hkc b hb).2.1]) 32 (by simp) tail 0
    simpa using this
  have hkey : (((ztagFieldMarker ++ (k ++ 32 :: tail)).drop 4).take k.length) = k := by
    rw [hdrop4, take_len_append]
  simp only [ztagGetKvpRefs, hpre, Bool.true_eq_false, not_true_eq_false, if_false,
    hfind, isCharBoundary_of_ascii hall, Bool.false_eq_true, not_false_eq_true,
    if_true, and_true, hkey]
  split <;> split <;> rfl

/-- Claim C7 amended: on a well-formed field line "... " ++ key ++ SP ++
value ++ terminator (data ASCII at scalar level; the value may contain
interior LF bytes from multi-line accumulation, which are preserved
verbatim), get_kvp_refs returns the value with a CR LF terminator dropped
whole, or an LF terminator dropped alone provided the value does not end in
CR; but a final line with no trailing terminator still loses its final
byte: the trim is unconditional. -/
theorem c7_amended (k v : List Nat) (hk : k ≠ [])
    (hkc : ∀ b ∈ k, b < 128 ∧ b ≠ 32 ∧ b ≠ 10) (hvc : ∀ b ∈ v, b < 128) :
    ztagGetKvpRefs (ztagFieldMarker ++ (k ++ 32 :: (v ++ [13, 10]))) = .ok k v ∧
    (v.getLast? ≠ some 13 →
      ztagGetKvpRefs (ztagFieldMarker ++ (k ++ 32 :: (v ++ [10]))) = .ok k v) ∧
    (v ≠ [] → v.getLast? ≠ some 10 →
      ztagGetKvpRefs (ztagFieldMarker ++ (k ++ 32 :: v)) = .ok k v.dropLast) := by
  have hm : ztagFieldMarker.length = 4 := rfl
  refine ⟨?_, ?_, ?_⟩
  · -- CR LF terminator: dropped whole, value verbatim
    rw [ztagGetKvpRefs_reduce k (v ++ [13, 10]) hkc
      (by intro b hb; simp [List.mem_append, List.mem_cons] at hb
          rcases hb with h | h | h
          · exact hvc b h
          · omega
          · omega)]
    have e1 : ztagFieldMarker ++ (k ++ 32 :: (v ++ [13, 10])) =
        (ztagFieldMarker ++ (k ++ (32 :: v))) ++ [13, 10] := by simp
    have hlen : (ztagFieldMarker ++ (k ++ 32 :: (v ++ [13, 10]))).length =
        k.length + v.length + 7 := by
      simp [List.length_append, List.length_cons, hm]
      omega
    have hcond : (ztagFieldMarker ++ (k ++ 32 :: (v ++ [13, 10]))).drop
        ((ztagFieldMarker ++ (k ++ 32 :: (v ++ [13, 10]))).length - 2) = [13, 10] := by
      rw [hlen, e1]
      rw [show k.length + v.length + 7 - 2 =
        (ztagFieldMarker ++ (k ++ (32 :: v))).length from by
          simp [List.length_append, List.length_cons, hm]; omega]
      exact drop_len_append _ _
    rw [if_pos hcond, if_pos (by rw [hlen]; omega)]
    have e2 : ztagFieldMarker ++ (k ++ 32 :: (v ++ [13, 10])) =
        (ztagFieldMarker ++ (k ++ [32])) ++ (v ++ [13, 10]) := by simp
    have hdropv : (ztagFieldMarker ++ (k ++ 32 :: (v ++ [13, 10]))).drop
        (4 + k.length + 1) = v ++ [13, 10] := by
      rw [e2, show 4 + k.length + 1 = (ztagFieldMarker ++ (k ++ [32])).length from by
        simp [List.length_append, hm]; omega]
      exact drop_len_append _ _
    rw [hdropv, hlen, show k.length + v.length + 7 - 2 - (4 + k.length + 1) =
      v.length from by omega, take_len_append]
  · -- LF terminator, value not ending in CR: dropped alone, value verbatim
    intro hlast
    rw [ztagGetKvpRefs_reduce k (v ++ [10]) hkc
      (by intro b hb; simp [List.mem_append, List.mem_cons] at hb
          rcases hb with h | h
          · exact hvc b h
          · omega)]
    have hlen : (ztagFieldMarker ++ (k ++ 32 :: (v ++ [10]))).length =
        k.length + v.length + 6 := by
      simp [List.length_append, List.length_cons, hm]
      omega
    have hcond : ¬ (ztagFieldMarker ++ (k ++ 32 :: (v ++ [10]))).drop
        ((ztagFieldMarker ++ (k ++ 32 :: (v ++ [10]))).length - 2) = [13, 10] := by
      rcases List.eq_nil_or_concat v with hv | ⟨v2, c, hv⟩
      · subst hv
        rw [hlen]
        have e1 : ztagFieldMarker ++ (k ++ 32 :: (([] : List Nat) ++ [10])) =
            (ztagFieldMarker ++ k) ++ [32, 10] := by simp
        rw [e1, show k.length + List.length ([] : List Nat) + 6 - 2 =
          (ztagFieldMarker ++ k).length from by simp [List.length_append, hm]; omega,
          drop_len_append]
        simp
      · subst hv
        have hc : c ≠ 13 := by
          intro hc
          exact hlast (by rw [List.concat_eq_append, List.getLast?_concat, hc])
        rw [hlen]
        have e1 : ztagFieldMarker ++ (k ++ 32 :: ((v2.concat c) ++ [10])) =
            (ztagFieldMarker ++ (k ++ (32 :: v2))) ++ [c, 10] := by simp
        rw [e1, show k.length + (v2.concat c).length + 6 - 2 =
          (ztagFieldMarker ++ (k ++ (32 :: v2))).length from by
            simp [List.length_append, List.length_cons, hm]; omega,
          drop_len_append]
        simp [hc]
    rw [if_neg hcond, if_pos (by rw [hlen]; omega)]
    have e2 : ztagFieldMarker ++ (k ++ 32 :: (v ++ [10])) =
        (ztagFieldMarker ++ (k ++ [32])) ++ (v ++ [10]) := by simp
    have hdropv : (ztagFieldMarker ++ (k ++ 32 :: (v ++ [10]))).drop
        (4 + k.length + 1) = v ++ [10] := by
      rw [e2, show 4 + k.length + 1 = (ztagFieldMarker ++ (k ++ [32])).length from by
        simp [List.length_append, hm]; omega]
      exact drop_len_append _ _
    rw [hdropv, hlen, show k.length + v.length + 6 - 1 - (4 + k.length + 1) =
      v.length from by omega, take_len_append]
  · -- no terminator at all: one byte is still dropped
    intro hne hlast
    rw [ztagGetKvpRefs_reduce k v hkc hvc]
    have hlen : (ztagFieldMarker ++ (k ++ 32 :: v)).length =
        k.length + v.length + 5 := by
      simp [List.length_append, List.length_cons, hm]
      omega
    have hvpos : 1 ≤ v.length := by
      cases v with
      | nil => exact absurd rfl hne
      | cons a tl => simp
    have hcond : ¬ (ztagFieldMarker ++ (k ++ 32 :: v)).drop
        ((ztagFieldMarker ++ (k ++ 32 :: v)).length - 2) = [13, 10] := by
      rcases List.eq_nil_or_concat v with hv | ⟨v2, c, hv⟩
      · exact absurd hv hne
      · subst hv
        have hc : c ≠ 10 := by
          intro hc
          exact hlast (by rw [List.concat_eq_append, List.getLast?_concat, hc])
        intro hdrop
        have : (ztagFieldMarker ++ (k ++ 32 :: v2.concat c)).getLast? = some 10 := by
          have e1 : ztagFieldMarker ++ (k ++ 32 :: v2.concat c) =
              ((ztagFieldMarker ++ (k ++ 32 :: v2.concat c)).take
                ((ztagFieldMarker ++ (k ++ 32 :: v2.concat c)).length - 2)) ++ [13, 10] := by
            conv_lhs => rw [← List.take_append_drop
              ((ztagFieldMarker ++ (k ++ 32 :: v2.concat c)).length - 2)
              (ztagFieldMarker ++ (k ++ 32 :: v2.concat c))]
            rw [hdrop]
          rw [e1, show ([13, 10] : List Nat) = [13] ++ [10] from rfl,
            ← List.append_assoc, List.getLast?_concat]
        have h2 : (ztagFieldMarker ++ (k ++ 32 :: v2.concat c)).getLast? = some c := by
          have e2 : ztagFieldMarker ++ (k ++ 32 :: v2.concat c) =
              (ztagFieldMarker ++ (k ++ (32 :: v2))) ++ [c] := by simp
          rw [e2, List.getLast?_concat]
        rw [h2] at this
        exact hc (by injection this)
    rw [if_neg hcond, if_pos (by rw [hlen]; omega)]
    have e2 : ztagFieldMarker ++ (k ++ 32 :: v) =
        (ztagFieldMarker ++ (k ++ [32])) ++ v := by simp
    have hdropv : (ztagFieldMarker ++ (k ++ 32 :: v)).drop (4 + k.length + 1) = v := by
      rw [e2, show 4 + k.length + 1 = (ztagFieldMarker ++ (k ++ [32])).length from by
        simp [List.length_append, hm]; omega]
      exact drop_len_append _ _
    rw [hdropv, hlen, show k.length + v.length + 5 - 1 - (4 + k.length + 1) =
      v.length - 1 from by omega]
    rw [List.dropLast_eq_take]

theorem c7_witness :
    ztagGetKvpRefs (ztagFieldMarker ++ (strBytes "key" ++ 32 ::
      (strBytes "a\nb" ++ [13, 10]))) = .ok (strBytes "key") (strBytes "a\nb") ∧
    ztagGetKvpRefs (ztagFieldMarker ++ (strBytes "key" ++ 32 ::
      (strBytes "a\nb" ++ [10]))) = .ok (strBytes "key") (strBytes "a\nb") ∧
    ztagGetKvpRefs (ztagFieldMarker ++ (strBytes "key" ++ 32 ::
      strBytes "a\nb")) = .ok (strBytes "key") (strBytes "a\nb").dropLast :=
  ⟨(c7_amended (strBytes "key") (strBytes "a\nb") (by decide) (by decide)
      (by decide)).1,
   (c7_amended (strBytes "key") (strBytes "a\nb") (by decide) (by decide)
      (by decide)).2.1 (by decide),
   (c7_amended (strBytes "key") (strBytes "a\nb") (by decide) (by decide)
      (by decide)).2.2 (by decide) (by decide)⟩

/-! ## Record types and interim accumulators: src/lib.rs -/

/-- P4File from lib.rs (digest is the fixed 16-byte array). -/
structure P4File where
  depot_path : String
  action : String
  revision : Nat
  file_size : Nat
  digest : List Nat
deriving DecidableEq, Repr

/-- P4Changelist from lib.rs. -/
structure P4Changelist where
  changelist : Nat
  time : Nat
  user : String
  description : String
  files : List P4File
deriving DecidableEq, Repr

/-- InterimP4Changelist from lib.rs: every field optional until observed. -/
structure InterimP4Changelist where
  change : Option Nat
  time : Option Nat
  user : Option String
  description : Option String
  files : List P4File
deriving DecidableEq, Repr

/-- Default::default() for the interim changelist. -/
def emptyInterimChangelist : InterimP4Changelist :=
  { change := none, time := none, user := none, description := none, files := [] }

/-- TryInto<P4Changelist> for InterimP4Changelist: the ok_or chain in
declaration order — the first unset field names the error. -/
def tryIntoChangelist (i : InterimP4Changelist) : Except String P4Changelist :=
  match i.change with
  | none => .error "Missing changelist"
  | some changelist =>
    match i.time with
    | none => .error "Missing time"
    | some time =>
      match i.user with
      | none => .error "Missing user"
      | some user =>
        match i.description with
        | none => .error "Missing description"
        | some description =>
          .ok { changelist, time, user, description, files := i.files }

/-- InterimP4File from lib.rs. -/
structure InterimP4File where
  depot_path : Option String
  action : Option String
  revision : Option Nat
  file_size : Option Nat
  digest : Option (List Nat)
deriving DecidableEq, Repr

/-- Default::default() for the interim file. -/
def emptyInterimFile : InterimP4File :=
  { depot_path := none, action := none, revision := none, file_size := none,
    digest := none }

/-- TryInto<P4File> for InterimP4File: ok_or chain in declaration order. -/
def tryIntoFile (i : InterimP4File) : Except String P4File :=
  match i.depot_path with
  | none => .error "Missing depot path"
  | some depot_path =>
    match i.action with
    | none => .error "Missing action"
    | some action =>
      match i.revision with
      | none => .error "Missing revision"
      | some revision =>
        match i.file_size with
        | none => .error "Missing file size"
        | some file_size =>
          match i.digest with
          | none => .error "Missing digest"
          | some digest =>
            .ok { depot_path, action, revision, file_size, digest }

/-- Rust unsigned from_str: optional leading plus sign, then one or more
ASCII digits, value below the type bound; anything else is a parse error
(none). -/
def parseUInt (bound : Nat) (s : String) : Option Nat :=
  let cs := if ("+").data.isPrefixOf s.data then s.data.drop 1 else s.data
  if cs ≠ [] ∧ cs.all (fun c => c.isDigit) then
    let n := cs.foldl (fun acc c => acc * 10 + (c.toNat - 48)) 0
    if n < bound then some n else none
  else none

/-! ## Changelist assembler: src/changes.rs -/

/-- P4ChangesIterator::populate_field.  The value parses for change and
time use unwrap: a parse failure is a panic, modelled as none.  Unknown
keys are silently ignored. -/
def populateChangeField (change : InterimP4Changelist) (key value : String) :
    Option InterimP4Changelist :=
  if key = "change" then
    (parseUInt (2 ^ 32) value).map fun n => { change with change := some n }
  else if key = "time" then
    (parseUInt (2 ^ 32) value).map fun n => { change with time := some n }
  else if key = "user" then some { change with user := some value }
  else if key = "desc" then some { change with description := some value }
  else some change

/-- One call of P4ChangesIterator::next: either a changelist is yielded
(with the continuation state), the iteration is over, or an unwrap panicked
(failed finalize or failed field parse). -/
inductive ChangesStep where
  | yield (c : P4Changelist) (ts : List (Nat × String × String))
      (prev : Option Nat) (cur : InterimP4Changelist)
  | done
  | panicked
deriving DecidableEq, Repr

/-- P4ChangesIterator::next over the decoder's triple stream (the parser is
abstracted by the list of triples it yields; a decoder error would be an
unwrap panic before any of the logic here runs).  State: the remaining
triples, previous_dict_index, and the open accumulator. -/
def changesNext : List (Nat × String × String) → Option Nat →
    InterimP4Changelist → ChangesStep
  | [], prev, cur =>
    match prev with
    | some _ =>
      match tryIntoChangelist cur with
      | .ok c => .yield c [] none emptyInterimChangelist
      | .error _ => .panicked
    | none => .done
  | (i, k, v) :: ts, prev, cur =>
    if some i ≠ prev then
      match tryIntoChangelist cur with
      | .error _ => .panicked
      | .ok c =>
        match populateChangeField emptyInterimChangelist k v with
        | none => .panicked
        | some cur2 => .yield c ts (some i) cur2
    else
      match populateChangeField cur k v with
      | none => .panicked
      | some cur2 => changesNext ts prev cur2

/-- Claim C3: finalizing an interim accumulator with a required field unset
fails with a missing-field error naming the first absent field in
declaration order (for both the changelist and the file shape), a complete
accumulator finalizes to exactly its fields, the assembly loop panics
instead of emitting anything when a finalize fails (both at a record
boundary and at stream end), and every changelist the assembler emits is
the image of a successful finalize. -/
theorem c3_missing_field :
    (∀ i : InterimP4Changelist,
      (i.change = none → tryIntoChangelist i = .error "Missing changelist") ∧
      (i.change ≠ none → i.time = none →
        tryIntoChangelist i = .error "Missing time") ∧
      (i.change ≠ none → i.time ≠ none → i.user = none →
        tryIntoChangelist i = .error "Missing user") ∧
      (i.change ≠ none → i.time ≠ none → i.user ≠ none → i.description = none →
        tryIntoChangelist i = .error "Missing description")) ∧
    (∀ c t u d fs, tryIntoChangelist ⟨some c, some t, some u, some d, fs⟩ =
      .ok ⟨c, t, u, d, fs⟩) ∧
    (∀ i : InterimP4File,
      (i.depot_path = none → tryIntoFile i = .error "Missing depot path") ∧
      (i.depot_path ≠ none → i.action = none →
        tryIntoFile i = .error "Missing action") ∧
      (i.depot_path ≠ none → i.action ≠ none → i.revision = none →
        tryIntoFile i = .error "Missing revision") ∧
      (i.depot_path ≠ none → i.action ≠ none → i.revision ≠ none →
        i.file_size = none → tryIntoFile i = .error "Missing file size") ∧
      (i.depot_path ≠ none → i.action ≠ none → i.revision ≠ none →
        i.file_size ≠ none → i.digest = none →
        tryIntoFile i = .error "Missing digest")) ∧
    (∀ dp a r s dg, tryIntoFile ⟨some dp, some a, some r, some s, some dg⟩ =
      .ok ⟨dp, a, r, s, dg⟩) ∧
    (∀ i : Nat, ∀ k v : String, ∀ ts prev cur e, some i ≠ prev →
      tryIntoChangelist cur = .error e →
      changesNext ((i, k, v) :: ts) prev cur = .panicked) ∧
    (∀ j cur e, tryIntoChangelist cur = .error e →
      changesNext [] (some j) cur = .panicked) ∧
    (∀ ts prev cur c ts2 prev2 cur2,
      changesNext ts prev cur = .yield c ts2 prev2 cur2 →
      ∃ acc, tryIntoChangelist acc = .ok c) := by
  refine ⟨?_, ?_, ?_, ?_, ?_, ?_, ?_⟩
  · intro i
    obtain ⟨c, t, u, d, fs⟩ := i
    rcases c with _ | c <;> rcases t with _ | t <;>
      rcases u with _ | u <;> rcases d with _ | d <;>
      refine ⟨?_, ?_, ?_, ?_⟩ <;> intros <;> simp_all [tryIntoChangelist]
  · intro c t u d fs
    rfl
  · intro i
    obtain ⟨dp, a, r, s, dg⟩ := i
    rcases dp with _ | dp <;> rcases a with _ | a <;>
      rcases r with _ | r <;> rcases s with _ | s <;> rcases dg with _ | dg <;>
      refine ⟨?_, ?_, ?_, ?_, ?_⟩ <;> intros <;> simp_all [tryIntoFile]
  · intro dp a r s dg
    rfl
  · intro i k v ts prev cur e hne htry
    simp [changesNext, hne, htry]
  · intro j cur e htry
    simp [changesNext, htry]
  · intro ts
    induction ts with
    | nil =>
      intro prev cur c ts2 prev2 cur2 h
      simp only [changesNext] at h
      cases prev with
      | none => exact ChangesStep.noConfusion h
      | some j =>
        cases htry : tryIntoChangelist cur with
        | ok c' =>
          rw [htry] at h
          simp only [] at h
          injection h with h1
          exact ⟨cur, h1 ▸ htry⟩
        | error e =>
          rw [htry] at h
          exact ChangesStep.noConfusion h
    | cons t ts ih =>
      obtain ⟨i, k, v⟩ := t
      intro prev cur c ts2 prev2 cur2 h
      simp only [changesNext] at h
      split at h
      · cases htry : tryIntoChangelist cur with
        | error e => rw [htry] at h; exact ChangesStep.noConfusion h
        | ok c' =>
          rw [htry] at h
          simp only [] at h
          cases hpop : populateChangeField emptyInterimChangelist k v with
          | none => rw [hpop] at h; exact ChangesStep.noConfusion h
          | some cur2' =>
            rw [hpop] at h
            simp only [] at h
            injection h with h1
            exact ⟨cur, h1 ▸ htry⟩
      · cases hpop : populateChangeField cur k v with
        | none => rw [hpop] at h; exact ChangesStep.noConfusion h
        | some cur2' =>
          rw [hpop] at h
          simp only [] at h
          exact ih prev cur2' c ts2 prev2 cur2 h

theorem c3_witness :
    tryIntoChangelist emptyInterimChangelist = .error "Missing changelist" ∧
    tryIntoChangelist ⟨some 10, none, none, none, []⟩ = .error "Missing time" ∧
    tryIntoChangelist ⟨some 10, some 1, some "u", some "d", []⟩ =
      .ok ⟨10, 1, "u", "d", []⟩ ∧
    tryIntoFile emptyInterimFile = .error "Missing depot path" ∧
    changesNext [(1, "change", "5")] (some 0) emptyInterimChangelist = .panicked ∧
    changesNext [] (some 0) emptyInterimChangelist = .panicked ∧
    (∃ acc, tryIntoChangelist acc = .ok ⟨10, 1, "u", "d", []⟩) :=
  ⟨(c3_missing_field.1 emptyInterimChangelist).1 rfl,
   (c3_missing_field.1 ⟨some 10, none, none, none, []⟩).2.1 (by simp) rfl,
   c3_missing_field.2.1 10 1 "u" "d" [],
   (c3_missing_field.2.2.1 emptyInterimFile).1 rfl,
   c3_missing_field.2.2.2.2.1 1 "change" "5" [] (some 0) emptyInterimChangelist
     "Missing changelist" (by simp) rfl,
   c3_missing_field.2.2.2.2.2.1 0 emptyInterimChangelist "Missing changelist" rfl,
   c3_missing_field.2.2.2.2.2.2 [] (some 0) ⟨some 10, some 1, some "u", some "d", []⟩
     ⟨10, 1, "u", "d", []⟩ [] none emptyInterimChangelist rfl⟩

/-! ## File-entry assembler: src/describe.rs and split_indexed_key -/

/-- split_indexed_key from lib.rs: split at the first numeric character;
no numeric character gives none, and the numeric tail is parsed as u32 with
unwrap — a parse failure (or overflow) panics, modelled as an inner none.
The character test Char.isDigit agrees with char::is_numeric exactly on
ASCII characters (the non-ASCII Unicode numerics — categories Nd beyond
0-9, Nl, No — are isDigit-false but is_numeric-true), so this embedding is
exact on ASCII strings and every theorem below that splits a key carries
an ASCII hypothesis (WfKey) confining it to that fragment. -/
def splitIndexedKey (key : String) : Option (String × Option Nat) :=
  match key.data.findIdx? (fun c => c.isDigit) with
  | none => none
  | some i =>
    some (String.mk (key.data.take i), parseUInt (2 ^ 32) (String.mk (key.data.drop i)))

/-- One hex digit value (const_hex digit set: 0-9, a-f, A-F). -/
def hexVal? (c : Char) : Option Nat :=
  if c.isDigit then some (c.toNat - 48)
  else if 97 ≤ c.toNat ∧ c.toNat ≤ 102 then some (c.toNat - 87)
  else if 65 ≤ c.toNat ∧ c.toNat ≤ 70 then some (c.toNat - 55)
  else none

def hexBytes? : List Char → Option (List Nat)
  | [] => some []
  | [_] => none
  | h :: l :: rest =>
    match hexVal? h, hexVal? l, hexBytes? rest with
    | some a, some b, some tl => some ((a * 16 + b) :: tl)
    | _, _, _ => none

/-- const_hex::decode_to_array::<16>: an optional 0x marker, then exactly
32 hex digits giving 16 bytes; anything else fails (unwrap panics). -/
def hexDecode16? (s : String) : Option (List Nat) :=
  let cs := if ("0x").data.isPrefixOf s.data then s.data.drop 2 else s.data
  if cs.length = 32 then hexBytes? cs else none

/-- P4DescribeIterator::populate_field.  rev, fileSize and digest carry
unwraps: a conversion failure is a panic, modelled as none.  Unknown keys
are ignored. -/
def populateFileField (file : InterimP4File) (key value : String) :
    Option InterimP4File :=
  if key = "depotFile" then some { file with depot_path := some value }
  else if key = "action" then some { file with action := some value }
  else if key = "rev" then
    (parseUInt (2 ^ 32) value).map fun n => { file with revision := some n }
  else if key = "fileSize" then
    (parseUInt (2 ^ 64) value).map fun n => { file with file_size := some n }
  else if key = "digest" then
    (hexDecode16? value).map fun d => { file with digest := some d }
  else some file

/-- One call of P4DescribeIterator::next. -/
inductive DescribeStep where
  | yield (f : P4File) (ts : List (Nat × String × String))
      (idx : Option Nat) (cur : InterimP4File)
  | done
  | panicked
deriving DecidableEq, Repr

/-- P4DescribeIterator::next over the decoder's triple stream.  Grouping is
by the numeric suffix of the key, not by the decoder's record index: a
suffix equal to the current file index extends the open accumulator, any
other suffix finalizes it (unwrap — panic on a missing field) and opens a
new one seeded with the current pair.  A key without a numeric suffix hits
panic!("Unexpected key format"); a suffix that fails the u32 parse panics
inside split_indexed_key. -/
def describeNext : List (Nat × String × String) → Option Nat → InterimP4File →
    DescribeStep
  | [], idx, cur =>
    match idx with
    | some _ =>
      match tryIntoFile cur with
      | .ok f => .yield f [] none emptyInterimFile
      | .error _ => .panicked
    | none => .done
  | (_, k, v) :: ts, idx, cur =>
    match splitIndexedKey k with
    | some (base, some n) =>
      if some n ≠ idx then
        match tryIntoFile cur with
        | .error _ => .panicked
        | .ok f =>
          match populateFileField emptyInterimFile base v with
          | none => .panicked
          | some cur2 => .yield f ts (some n) cur2
      else
        match populateFileField cur base v with
        | none => .panicked
        | some cur2 => describeNext ts idx cur2
    | some (_, none) => .panicked
    | none => .panicked

/-- Result of the header loop of P4DescribeIterator::new_from_reader: the
changelist accumulator, the index and accumulator of the first file entry
(seeded by the first indexed key, which breaks the loop), and the
remaining triples. -/
inductive DescribeHeaderResult where
  | ok (cc : InterimP4Changelist) (idx : Option Nat) (cur : InterimP4File)
      (ts : List (Nat × String × String))
  | panicked
deriving DecidableEq, Repr

/-- The header loop of P4DescribeIterator::new_from_reader. -/
def describeHeader : List (Nat × String × String) → InterimP4Changelist →
    DescribeHeaderResult
  | [], cc => .ok cc none emptyInterimFile []
  | (_, k, v) :: ts, cc =>
    if k = "change" then
      match parseUInt (2 ^ 32) v with
      | none => .panicked
      | some n => describeHeader ts { cc with change := some n }
    else if k = "time" then
      match parseUInt (2 ^ 32) v with
      | none => .panicked
      | some n => describeHeader ts { cc with time := some n }
    else if k = "user" then describeHeader ts { cc with user := some v }
    else if k = "desc" then describeHeader ts { cc with description := some v }
    else
      match splitIndexedKey k with
      | some (base, some n) =>
        match populateFileField emptyInterimFile base v with
        | none => .panicked
        | some cur => .ok cc (some n) cur ts
      | some (_, none) => .panicked
      | none => describeHeader ts cc

/-- Result of draining P4DescribeIterator. -/
inductive DescribeRunResult where
  | finished (files : List P4File)
  | panicked
deriving DecidableEq, Repr

def describeMeasure (ts : List (Nat × String × String)) (idx : Option Nat) : Nat :=
  ts.length * 2 + (if idx.isSome then 1 else 0)

theorem describeNext_yield_measure :
    ∀ ts idx cur f ts2 idx2 cur2,
      describeNext ts idx cur = .yield f ts2 idx2 cur2 →
      describeMeasure ts2 idx2 < describeMeasure ts idx := by
  intro ts
  induction ts with
  | nil =>
    intro idx cur f ts2 idx2 cur2 h
    simp only [describeNext] at h
    cases idx with
    | none => exact DescribeStep.noConfusion h
    | some j =>
      cases ht : tryIntoFile cur with
      | ok f' =>
        rw [ht] at h
        simp only [] at h
        injection h with h1 h2 h3 h4
        subst h2; subst h3
        simp [describeMeasure]
      | error e =>
        rw [ht] at h
        exact DescribeStep.noConfusion h
  | cons t ts ih =>
    obtain ⟨i, k, v⟩ := t
    intro idx cur f ts2 idx2 cur2 h
    simp only [describeNext] at h
    cases hs : splitIndexedKey k with
    | none => rw [hs] at h; exact DescribeStep.noConfusion h
    | some bn =>
      obtain ⟨base, n?⟩ := bn
      cases n? with
      | none => rw [hs] at h; exact DescribeStep.noConfusion h
      | some n =>
        rw [hs] at h
        simp only [] at h
        split at h
        · cases ht : tryIntoFile cur with
          | error e => rw [ht] at h; exact DescribeStep.noConfusion h
          | ok f' =>
            rw [ht] at h
            simp only [] at h
            cases hp : populateFileField emptyInterimFile base v with
            | none => rw [hp] at h; exact DescribeStep.noConfusion h
            | some cur2' =>
              rw [hp] at h
              simp only [] at h
              injection h with h1 h2 h3 h4
              subst h2; subst h3
              simp [describeMeasure]
              split <;> omega
        · cases hp : populateFileField cur base v with
          | none => rw [hp] at h; exact DescribeStep.noConfusion h
          | some cur2' =>
            rw [hp] at h
            have := ih idx cur2' f ts2 idx2 cur2 h
            simp [describeMeasure] at this ⊢
            split at this <;> split at this <;> simp_all <;> omega

/-- Fuel-indexed drain of P4DescribeIterator; describeRunAll below supplies
sufficient fuel. -/
def describeRunFuel : Nat → List (Nat × String × String) → Option Nat →
    InterimP4File → DescribeRunResult
  | 0, _, _, _ => .panicked
  | fuel + 1, ts, idx, cur =>
    match describeNext ts idx cur with
    | .done => .finished []
    | .panicked => .panicked
    | .yield f ts2 idx2 cur2 =>
      match describeRunFuel fuel ts2 idx2 cur2 with
      | .finished fs => .finished (f :: fs)
      | r => r

theorem describeRunFuel_congr :
    ∀ f1 f2 ts idx cur, describeMeasure ts idx < f1 → describeMeasure ts idx < f2 →
      describeRunFuel f1 ts idx cur = describeRunFuel f2 ts idx cur := by
  intro f1
  induction f1 with
  | zero => intro f2 ts idx cur h1 h2; omega
  | succ f1 ih =>
    intro f2 ts idx cur h1 h2
    cases f2 with
    | zero => omega
    | succ f2 =>
      simp only [describeRunFuel]
      cases hN : describeNext ts idx cur with
      | done => rfl
      | panicked => rfl
      | yield f ts2 idx2 cur2 =>
        have := describeNext_yield_measure ts idx cur f ts2 idx2 cur2 hN
        simp only []
        rw [ih f2 ts2 idx2 cur2 (by omega) (by omega)]

/-- Drain P4DescribeIterator from a given state, collecting the files. -/
def describeRunAll (ts : List (Nat × String × String)) (idx : Option Nat)
    (cur : InterimP4File) : DescribeRunResult :=
  describeRunFuel (describeMeasure ts idx + 1) ts idx cur

theorem describeRunAll_eq (ts : List (Nat × String × String)) (idx : Option Nat)
    (cur : InterimP4File) :
    describeRunAll ts idx cur =
      match describeNext ts idx cur with
      | .done => .finished []
      | .panicked => .panicked
      | .yield f ts2 idx2 cur2 =>
        match describeRunAll ts2 idx2 cur2 with
        | .finished fs => .finished (f :: fs)
        | r => r := by
  unfold describeRunAll
  rw [describeRunFuel]
  cases hN : describeNext ts idx cur with
  | done => rfl
  | panicked => rfl
  | yield f ts2 idx2 cur2 =>
    have := describeNext_yield_measure ts idx cur f ts2 idx2 cur2 hN
    simp only []
    rw [describeRunFuel_congr (describeMeasure ts idx) (describeMeasure ts2 idx2 + 1)
      ts2 idx2 cur2 (by omega) (by omega)]

theorem describeRunAll_congr {ts ts2 : List (Nat × String × String)}
    {idx idx2 : Option Nat} {cur cur2 : InterimP4File}
    (h : describeNext ts idx cur = describeNext ts2 idx2 cur2) :
    describeRunAll ts idx cur = describeRunAll ts2 idx2 cur2 := by
  rw [describeRunAll_eq, describeRunAll_eq, h]

/-- The full describe pipeline: header loop, changelist finalize, then the
file iteration. -/
inductive DescribeOutcome where
  | ok (cl : P4Changelist) (files : List P4File)
  | err (e : String)
  | panicked
deriving DecidableEq, Repr

def fullDescribe (ts : List (Nat × String × String)) : DescribeOutcome :=
  match describeHeader ts emptyInterimChangelist with
  | .panicked => .panicked
  | .ok cc idx cur rest =>
    match tryIntoChangelist cc with
    | .error e => .err e
    | .ok cl =>
      match describeRunAll rest idx cur with
      | .finished fs => .ok cl fs
      | .panicked => .panicked

/-- A 16-byte digest in hex, used by the concrete describe scenarios. -/
def c6hex : String := "00112233445566778899aabbccddeeff"

def c6digest : List Nat :=
  [0x00, 0x11, 0x22, 0x33, 0x44, 0x55, 0x66, 0x77,
   0x88, 0x99, 0xAA, 0xBB, 0xCC, 0xDD, 0xEE, 0xFF]

/-- A triple stream in which the pairs of suffix 0 are interleaved with the
pairs of suffix 1: suffix 0 appears, then suffix 1, then suffix 0 again. -/
def c6ts : List (Nat × String × String) :=
  [(0, "change", "7"), (0, "time", "1"), (0, "user", "u"), (0, "desc", "d"),
   (0, "depotFile0", "A"), (0, "action0", "add"), (0, "rev0", "1"),
   (0, "fileSize0", "10"), (0, "digest0", c6hex),
   (0, "depotFile1", "B"), (0, "action1", "edit"), (0, "rev1", "2"),
   (0, "fileSize1", "20"), (0, "digest1", c6hex),
   (0, "depotFile0", "C"), (0, "action0", "del"), (0, "rev0", "3"),
   (0, "fileSize0", "30"), (0, "digest0", c6hex)]

set_option maxRecDepth 40000 in
/-- Counterexample to claim C6 as stated: pairs sharing the decimal suffix
0 are NOT all assigned to one file entry when interleaved with suffix 1 —
the run of suffix-0 pairs after the suffix-1 block opens a third, separate
entry, so two distinct suffixes produce three emitted entries. -/
theorem c6_counterexample :
    fullDescribe c6ts =
      .ok ⟨7, 1, "u", "d", []⟩
        [⟨"A", "add", 1, 10, c6digest⟩,
         ⟨"B", "edit", 2, 20, c6digest⟩,
         ⟨"C", "del", 3, 30, c6digest⟩] := by
  rfl

/-- The triples of one run: every pair's key carries the same decimal
suffix (the decoder record index component is unused by the file
assembler, so it is 0 here). -/
def runTriples (ds : String) (ps : List (String × String)) :
    List (Nat × String × String) :=
  ps.map fun kv => (0, kv.1 ++ ds, kv.2)

def runsTriples : List (String × List (String × String)) →
    List (Nat × String × String)
  | [] => []
  | (ds, ps) :: rs => runTriples ds ps ++ runsTriples rs

/-- Apply populate_field over a run's pairs (none = some field panicked). -/
def foldPop (cur : InterimP4File) : List (String × String) → Option InterimP4File
  | [] => some cur
  | (k, v) :: ps =>
    match populateFileField cur k v with
    | none => none
    | some cur2 => foldPop cur2 ps

/-- The file a run assembles to, when its pairs populate and finalize. -/
def runFile? (ps : List (String × String)) : Option P4File :=
  (foldPop emptyInterimFile ps).bind fun c => (tryIntoFile c).toOption

def defaultP4File : P4File := ⟨"", "", 0, 0, []⟩

/-- A base key of ASCII characters free of numeric characters.  The ASCII
bound keeps the key inside the fragment where Char.isDigit agrees with the
char-is-numeric test of split_indexed_key: a non-ASCII Unicode numeric such
as the superscript two would make the source split earlier than the
embedding. -/
def WfKey (k : String) : Prop :=
  ∀ c ∈ k.data, c.toNat < 128 ∧ c.isDigit = false

/-- A usable decimal suffix: nonempty, leading digit, parses as u32. -/
def WfSuffix (ds : String) : Prop :=
  (∃ c rest, ds.data = c :: rest ∧ c.isDigit = true) ∧
    (parseUInt (2 ^ 32) ds).isSome

/-- A well-formed run: usable suffix, ASCII numeral-free base keys, at
least one pair, and pairs that assemble into a complete file. -/
def WfRun (r : String × List (String × String)) : Prop :=
  WfSuffix r.1 ∧ (∀ kv ∈ r.2, WfKey kv.1) ∧ r.2 ≠ [] ∧ (runFile? r.2).isSome

def sfxVal (ds : String) : Nat := (parseUInt (2 ^ 32) ds).getD 0

/-- Adjacent suffixes carry distinct numeric values. -/
def adjDistinctSfx : List String → Prop
  | [] => True
  | [_] => True
  | d1 :: d2 :: rs => sfxVal d1 ≠ sfxVal d2 ∧ adjDistinctSfx (d2 :: rs)

theorem splitIndexedKey_append (k ds : String)
    (hk : WfKey k) (hds : ∃ c rest, ds.data = c :: rest ∧ c.isDigit = true) :
    splitIndexedKey (k ++ ds) = some (k, parseUInt (2 ^ 32) ds) := by
  obtain ⟨c, rest, hdata, hc⟩ := hds
  simp only [splitIndexedKey, String.data_append, hdata]
  rw [findIdx?_append_cons (fun x hx => (hk x hx).2) hc rest 0]
  simp only [Nat.zero_add]
  rw [take_len_append, drop_len_append, ← hdata]

theorem key_append_ne (k ds : String)
    (hds : ∃ c rest, ds.data = c :: rest ∧ c.isDigit = true)
    (t : String) (ht : ∀ x ∈ t.data, x.isDigit = false) : ¬ (k ++ ds = t) := by
  intro he
  obtain ⟨c, rest, hdata, hc⟩ := hds
  have hmem : c ∈ (k ++ ds).data := by
    rw [String.data_append, hdata]
    simp
  rw [he] at hmem
  rw [ht c hmem] at hc
  exact Bool.noConfusion hc

theorem describeRun_runs :
    ∀ runs ds ps n cur curf f,
      parseUInt (2 ^ 32) ds = some n →
      (∃ c rest, ds.data = c :: rest ∧ c.isDigit = true) →
      (∀ kv ∈ ps, WfKey kv.1) →
      foldPop cur ps = some curf →
      tryIntoFile curf = .ok f →
      (∀ r ∈ runs, WfRun r) →
      adjDistinctSfx (ds :: runs.map Prod.fst) →
      describeRunAll (runTriples ds ps ++ runsTriples runs) (some n) cur =
        .finished (f :: runs.map fun r => (runFile? r.2).getD defaultP4File) := by
  intro runs
  induction runs with
  | nil =>
    intro ds ps n cur curf f hn hds hkeys hfold htry _ _
    induction ps generalizing cur with
    | nil =>
      simp only [foldPop, Option.some.injEq] at hfold
      subst hfold
      simp only [runTriples, runsTriples, List.map_nil, List.append_nil]
      rw [describeRunAll_eq]
      simp only [describeNext, htry]
      rw [describeRunAll_eq]
      simp [describeNext]
    | cons p ps ihps =>
      obtain ⟨k, v⟩ := p
      simp only [foldPop] at hfold
      cases hpop : populateFileField cur k v with
      | none => rw [hpop] at hfold; exact Option.noConfusion hfold
      | some cur1 =>
        rw [hpop] at hfold
        simp only [] at hfold
        have hsplit := splitIndexedKey_append k ds
          (hkeys (k, v) (List.mem_cons_self _ _)) hds
        have hstep : describeNext (runTriples ds ((k, v) :: ps) ++ runsTriples [])
            (some n) cur =
            describeNext (runTriples ds ps ++ runsTriples []) (some n) cur1 := by
          simp only [runTriples, List.map_cons, List.cons_append, describeNext,
            hsplit, hn]
          simp [hpop]
        rw [describeRunAll_congr hstep]
        exact ihps cur1 (fun kv hkv => hkeys kv (List.mem_cons_of_mem _ hkv)) hfold
  | cons r2 runs ih =>
    intro ds ps n cur curf f hn hds hkeys hfold htry hwf hadj
    induction ps generalizing cur with
    | nil =>
      simp only [foldPop, Option.some.injEq] at hfold
      subst hfold
      obtain ⟨ds2, ps2⟩ := r2
      obtain ⟨⟨hds2, hsome2⟩, hkeys2, hne2, hfile2⟩ :=
        hwf (ds2, ps2) (List.mem_cons_self _ _)
      obtain ⟨n2, hn2⟩ := Option.isSome_iff_exists.mp hsome2
      obtain ⟨f2, hf2⟩ := Option.isSome_iff_exists.mp hfile2
      have hnn2 : n ≠ n2 := by
        have := hadj.1
        simp only [sfxVal, hn, hn2, Option.getD_some] at this
        exact this
      cases ps2 with
      | nil => exact absurd rfl hne2
      | cons p21 ps2' =>
        obtain ⟨k21, v21⟩ := p21
        have hsplit := splitIndexedKey_append k21 ds2
          (hkeys2 (k21, v21) (List.mem_cons_self _ _)) hds2
        -- decompose the head run's assembly
        simp only [runFile?, foldPop] at hf2
        cases hpop1 : populateFileField emptyInterimFile k21 v21 with
        | none => rw [hpop1] at hf2; exact Option.noConfusion hf2
        | some c1 =>
          rw [hpop1] at hf2
          simp only [] at hf2
          cases hfold2 : foldPop c1 ps2' with
          | none =>
            rw [hfold2] at hf2
            exact Option.noConfusion hf2
          | some curf2 =>
            rw [hfold2] at hf2
            simp only [Option.bind] at hf2
            have htry2 : tryIntoFile curf2 = .ok f2 := by
              cases h2 : tryIntoFile curf2 with
              | ok f' =>
                rw [h2] at hf2
                simp [Except.toOption] at hf2
                rw [hf2]
              | error e =>
                rw [h2] at hf2
                simp [Except.toOption] at hf2
            rw [describeRunAll_eq]
            have hne : ¬ (some n2 = some n) := fun hcontra =>
              hnn2 (by injection hcontra with h3; exact h3.symm)
            simp only [runsTriples, runTriples, List.map_nil, List.nil_append,
              List.map_cons, List.cons_append, describeNext, hsplit, hn2]
            simp only [ne_eq, hne, not_false_eq_true, if_true, htry, hpop1]
            have hrest := ih ds2 ps2' n2 c1 curf2 f2 hn2 hds2
              (fun kv hkv => hkeys2 kv (List.mem_cons_of_mem _ hkv))
              hfold2 htry2
              (fun r hr => hwf r (List.mem_cons_of_mem _ hr))
              (by
                have := hadj.2
                simpa using this)
            simp only [runTriples] at hrest
            simp only [List.append_eq]
            rw [hrest]
            simp only [runFile?, foldPop, hpop1, hfold2, htry2]
            simp [Except.toOption, htry2]
    | cons p ps ihps =>
      obtain ⟨k, v⟩ := p
      simp only [foldPop] at hfold
      cases hpop : populateFileField cur k v with
      | none => rw [hpop] at hfold; exact Option.noConfusion hfold
      | some cur1 =>
        rw [hpop] at hfold
        simp only [] at hfold
        have hsplit := splitIndexedKey_append k ds
          (hkeys (k, v) (List.mem_cons_self _ _)) hds
        have hstep : describeNext (runTriples ds ((k, v) :: ps) ++
            runsTriples (r2 :: runs)) (some n) cur =
            describeNext (runTriples ds ps ++ runsTriples (r2 :: runs))
              (some n) cur1 := by
          simp only [runTriples, List.map_cons, List.cons_append, describeNext,
            hsplit, hn]
          simp [hpop]
        rw [describeRunAll_congr hstep]
        exact ihps cur1 (fun kv hkv => hkeys kv (List.mem_cons_of_mem _ hkv)) hfold

/-- The changelist header fields preceding the file entries. -/
def headerTriples (c t u d : String) : List (Nat × String × String) :=
  [(0, "change", c), (0, "time", t), (0, "user", u), (0, "desc", d)]

theorem describeHeader_header (c t u d : String) (cn tn : Nat)
    (rest : List (Nat × String × String))
    (hc : parseUInt (2 ^ 32) c = some cn) (ht : parseUInt (2 ^ 32) t = some tn) :
    describeHeader (headerTriples c t u d ++ rest) emptyInterimChangelist =
      describeHeader rest ⟨some cn, some tn, some u, some d, []⟩ := by
  have hc2 : parseUInt 4294967296 c = some cn := hc
  have ht2 : parseUInt 4294967296 t = some tn := ht
  simp [headerTriples, describeHeader, hc2, ht2, emptyInterimChangelist]

/-- Claim C6 amended: grouping of file pairs is sequential, by maximal
consecutive runs of equal numeric suffix.  For a stream of ASCII keys
whose pairs are grouped into such runs (each run complete, adjacent runs
with distinct suffix values), every pair of a run is applied to the same
single file entry and the entries are emitted in run (first-seen) order —
one entry per run.  (The counterexample shows this fails for interleaved
suffixes: a reappearing suffix starts a new entry.  The ASCII bound in
WfKey confines the statement to the fragment where the embedded digit test
coincides with the char-is-numeric split of the source.) -/
theorem c6_amended (runs : List (String × List (String × String)))
    (c t u d : String) (cn tn : Nat)
    (hc : parseUInt (2 ^ 32) c = some cn) (ht : parseUInt (2 ^ 32) t = some tn)
    (hwf : ∀ r ∈ runs, WfRun r) (hadj : adjDistinctSfx (runs.map Prod.fst)) :
    fullDescribe (headerTriples c t u d ++ runsTriples runs) =
      .ok ⟨cn, tn, u, d, []⟩
        (runs.map fun r => (runFile? r.2).getD defaultP4File) := by
  unfold fullDescribe
  rw [describeHeader_header c t u d cn tn _ hc ht]
  cases runs with
  | nil =>
    simp only [runsTriples, describeHeader, tryIntoChangelist, List.map_nil]
    rw [describeRunAll_eq]
    simp [describeNext]
  | cons r2 runs2 =>
    obtain ⟨ds2, ps2⟩ := r2
    obtain ⟨⟨hds2, hsome2⟩, hkeys2, hne2, hfile2⟩ :=
      hwf (ds2, ps2) (List.mem_cons_self _ _)
    obtain ⟨n2, hn2⟩ := Option.isSome_iff_exists.mp hsome2
    obtain ⟨f2, hf2⟩ := Option.isSome_iff_exists.mp hfile2
    cases ps2 with
    | nil => exact absurd rfl hne2
    | cons p21 ps2' =>
      obtain ⟨k21, v21⟩ := p21
      have hsplit := splitIndexedKey_append k21 ds2
        (hkeys2 (k21, v21) (List.mem_cons_self _ _)) hds2
      simp only [runFile?, foldPop] at hf2
      cases hpop1 : populateFileField emptyInterimFile k21 v21 with
      | none => rw [hpop1] at hf2; exact Option.noConfusion hf2
      | some c1 =>
        rw [hpop1] at hf2
        simp only [] at hf2
        cases hfold2 : foldPop c1 ps2' with
        | none => rw [hfold2] at hf2; exact Option.noConfusion hf2
        | some curf2 =>
          rw [hfold2] at hf2
          simp only [Option.bind] at hf2
          have htry2 : tryIntoFile curf2 = .ok f2 := by
            cases h2 : tryIntoFile curf2 with
            | ok fx =>
              rw [h2] at hf2
              simp [Except.toOption] at hf2
              rw [hf2]
            | error e =>
              rw [h2] at hf2
              simp [Except.toOption] at hf2
          have hck : ¬ (k21 ++ ds2 = "change") :=
            key_append_ne _ _ hds2 _ (by decide)
          have htk : ¬ (k21 ++ ds2 = "time") :=
            key_append_ne _ _ hds2 _ (by decide)
          have huk : ¬ (k21 ++ ds2 = "user") :=
            key_append_ne _ _ hds2 _ (by decide)
          have hdk : ¬ (k21 ++ ds2 = "desc") :=
            key_append_ne _ _ hds2 _ (by decide)
          simp only [runsTriples, runTriples, List.map_cons, List.cons_append,
            describeHeader, hck, htk, huk, hdk, if_false, hsplit, hn2, hpop1]
          simp only [tryIntoChangelist]
          have hrun := describeRun_runs runs2 ds2 ps2' n2 c1 curf2 f2 hn2 hds2
            (fun kv hkv => hkeys2 kv (List.mem_cons_of_mem _ hkv))
            hfold2 htry2
            (fun r hr => hwf r (List.mem_cons_of_mem _ hr))
            (by simpa using hadj)
          simp only [runTriples] at hrun
          simp only [List.append_eq]
          rw [hrun]
          simp only [runFile?, foldPop, hpop1, hfold2]
          simp [Except.toOption, htry2]

instance (k : String) : Decidable (WfKey k) :=
  List.decidableBAll _ k.data

def c6wPs1 : List (String × String) :=
  [("depotFile", "//depot/a"), ("action", "add"), ("rev", "1"),
   ("fileSize", "10"), ("digest", "00112233445566778899AABBCCDDEEFF")]

def c6wPs2 : List (String × String) :=
  [("depotFile", "//depot/b"), ("action", "edit"), ("rev", "2"),
   ("fileSize", "20"), ("digest", "FFEEDDCCBBAA99887766554433221100")]

def c6wRuns : List (String × List (String × String)) :=
  [("0", c6wPs1), ("1", c6wPs2)]

theorem c6_witness :
    fullDescribe (headerTriples "7" "99" "u" "hello" ++ runsTriples c6wRuns) =
      .ok ⟨7, 99, "u", "hello", []⟩
        (c6wRuns.map fun r => (runFile? r.2).getD defaultP4File) := by
  refine c6_amended c6wRuns "7" "99" "u" "hello" 7 99 (by rfl) (by rfl) ?_ ?_
  · intro r hr
    simp only [c6wRuns, List.mem_cons, List.not_mem_nil, or_false] at hr
    rcases hr with h | h
    · subst h
      refine ⟨⟨⟨'0', [], rfl, by decide⟩, by rfl⟩,
        ?_, List.cons_ne_nil _ _, by rfl⟩
      show ∀ kv ∈ c6wPs1, WfKey kv.1
      decide
    · subst h
      refine ⟨⟨⟨'1', [], rfl, by decide⟩, by rfl⟩,
        ?_, List.cons_ne_nil _ _, by rfl⟩
      show ∀ kv ∈ c6wPs2, WfKey kv.1
      decide
  · exact ⟨by decide, trivial⟩
